import Mathlib

/-!
Shallow embedding of `src/variationmodel.ts` (the `fonttypes` library): the
OpenType variation model.

Modelling choices, used consistently below:
* JavaScript numbers are rationals (`ℚ`); all arithmetic in the source is
  exact on the inputs considered, and `ℚ` has no `-0`, whose only observable
  role in the source (falsiness) coincides with `0`.
* JavaScript objects (`NormalizedLocation`, `Support`, the sparse delta-weight
  rows) are insertion-ordered association lists.
* The values `undefined` and `NaN` that arise from out-of-range array
  indexing are both modelled by `none : JNum`; the source observes them only
  through falsiness (`!scalar`) and through arithmetic (which `NaN`-poisons),
  and `undefined` and `NaN` behave identically in both respects.
-/

namespace FontTypes

abbrev Tag := String

/-- A `NormalizedLocation`: a JS object mapping axis tags to numbers,
modelled as an insertion-ordered association list. -/
abbrev Loc := List (Tag × ℚ)

/-- An axis triple `[lower, peak, upper]`. -/
abbrev Triple := ℚ × ℚ × ℚ

/-- A `Support`: a JS object mapping axis tags to triples. -/
abbrev Support := List (Tag × Triple)

/-- JS `location[tag] || 0`: the value of an axis in a location, `0` when the
key is absent. -/
def getVal (loc : Loc) (tag : Tag) : ℚ :=
  match loc.find? (fun kv => kv.1 == tag) with
  | some kv => kv.2
  | none => 0

/-- JS `tag in obj` for an association-list object. -/
def hasKey (l : List (Tag × α)) (tag : Tag) : Bool :=
  (l.find? (fun kv => kv.1 == tag)).isSome

/-- The keys of a JS object, in insertion order. -/
def keysOf (l : List (Tag × α)) : List Tag :=
  l.map (fun kv => kv.1)

/-- Loop body of `supportScalar`: `scalar` is the running product, the list is
the remaining `Object.entries(support)`. -/
def supportScalarGo (location : Loc) : ℚ → Support → ℚ
  | scalar, [] => scalar
  | scalar, (tag, (lower, peak, upper)) :: rest =>
    if peak = 0 then supportScalarGo location scalar rest
    else if lower > peak ∨ peak > upper then supportScalarGo location scalar rest
    else if lower < 0 ∧ upper > 0 then supportScalarGo location scalar rest
    else if getVal location tag = peak then supportScalarGo location scalar rest
    else if getVal location tag ≤ lower ∨ upper ≤ getVal location tag then 0
    else if getVal location tag < peak then
      supportScalarGo location (scalar * ((getVal location tag - lower) / (peak - lower))) rest
    else
      supportScalarGo location (scalar * ((getVal location tag - upper) / (peak - upper))) rest

/-- `supportScalar(location, support)` from `variationmodel.ts`. -/
def supportScalar (location : Loc) (support : Support) : ℚ :=
  supportScalarGo location 1 support

/-- The skip conditions of the spec's `supportScalar` description: the axis
contributes factor 1 when its peak is 0, the triple is degenerate, the triple
straddles 0, or the location sits exactly on the peak. -/
def skippedB (location : Loc) (tag : Tag) (t : Triple) : Bool :=
  decide (t.2.1 = 0 ∨ t.1 > t.2.1 ∨ t.2.1 > t.2.2 ∨ (t.1 < 0 ∧ t.2.2 > 0) ∨
    getVal location tag = t.2.1)

/-- An axis that forces the whole scalar to 0: not skipped, and the location
lies at or beyond the triple's boundary. -/
def zeroAxisB (location : Loc) (kv : Tag × Triple) : Bool :=
  !(skippedB location kv.1 kv.2) &&
    decide (getVal location kv.1 ≤ kv.2.1 ∨ kv.2.2.2 ≤ getVal location kv.1)

/-- The linear ramp factor a non-skipped, non-zero axis contributes. -/
def axisFactor (location : Loc) (tag : Tag) (t : Triple) : ℚ :=
  if getVal location tag < t.2.1 then (getVal location tag - t.1) / (t.2.1 - t.1)
  else (getVal location tag - t.2.2) / (t.2.1 - t.2.2)

/-- The spec's product description of `supportScalar` (claim C7): 0 if some
non-skipped axis is at or beyond its boundary, otherwise the product of the
ramp factors of the non-skipped axes. -/
def supportScalarDesc (location : Loc) (support : Support) : ℚ :=
  if support.any (zeroAxisB location) then 0
  else ((support.filter (fun kv => !(skippedB location kv.1 kv.2))).map
      (fun kv => axisFactor location kv.1 kv.2)).prod

theorem supportScalarGo_cons_skipped {location : Loc} {tag : Tag} {t : Triple}
    (h : skippedB location tag t = true) (scalar : ℚ) (rest : Support) :
    supportScalarGo location scalar ((tag, t) :: rest) =
      supportScalarGo location scalar rest := by
  obtain ⟨lower, peak, upper⟩ := t
  simp only [skippedB, decide_eq_true_eq] at h
  simp only [supportScalarGo]
  split_ifs <;> first | rfl | tauto

theorem supportScalarGo_cons_zero {location : Loc} {tag : Tag} {t : Triple}
    (h : skippedB location tag t = false)
    (hz : getVal location tag ≤ t.1 ∨ t.2.2 ≤ getVal location tag)
    (scalar : ℚ) (rest : Support) :
    supportScalarGo location scalar ((tag, t) :: rest) = 0 := by
  obtain ⟨lower, peak, upper⟩ := t
  simp only [skippedB, decide_eq_false_iff_not] at h
  push_neg at h
  obtain ⟨h1, h2, h3, h4, h5⟩ := h
  simp only [supportScalarGo]
  rw [if_neg h1, if_neg (by push_neg; exact ⟨h2, h3⟩), if_neg (by
    rintro ⟨hl, hu⟩; exact absurd hu (not_lt.mpr (h4 hl))), if_neg h5, if_pos hz]

theorem supportScalarGo_cons_factor {location : Loc} {tag : Tag} {t : Triple}
    (h : skippedB location tag t = false)
    (hz : ¬(getVal location tag ≤ t.1 ∨ t.2.2 ≤ getVal location tag))
    (scalar : ℚ) (rest : Support) :
    supportScalarGo location scalar ((tag, t) :: rest) =
      supportScalarGo location (scalar * axisFactor location tag t) rest := by
  obtain ⟨lower, peak, upper⟩ := t
  simp only [skippedB, decide_eq_false_iff_not] at h
  push_neg at h
  obtain ⟨h1, h2, h3, h4, h5⟩ := h
  simp only [supportScalarGo, axisFactor]
  rw [if_neg h1, if_neg (by push_neg; exact ⟨h2, h3⟩), if_neg (by
    rintro ⟨hl, hu⟩; exact absurd hu (not_lt.mpr (h4 hl))), if_neg h5, if_neg hz]
  split_ifs with h6 <;> rfl

theorem supportScalarGo_desc (location : Loc) (support : Support) :
    ∀ scalar : ℚ, supportScalarGo location scalar support =
      if support.any (zeroAxisB location) then 0
      else scalar * ((support.filter (fun kv => !(skippedB location kv.1 kv.2))).map
        (fun kv => axisFactor location kv.1 kv.2)).prod := by
  induction support with
  | nil => intro scalar; simp [supportScalarGo]
  | cons head rest ih =>
    intro scalar
    obtain ⟨tag, t⟩ := head
    by_cases hsk : skippedB location tag t = true
    · have hz : zeroAxisB location (tag, t) = false := by
        simp [zeroAxisB, hsk]
      rw [supportScalarGo_cons_skipped hsk, ih]
      rw [List.any_cons, hz, List.filter_cons]
      simp only [hsk, Bool.not_true, Bool.false_eq_true, if_false, Bool.false_or]
    · rw [Bool.not_eq_true] at hsk
      by_cases hb : getVal location tag ≤ t.1 ∨ t.2.2 ≤ getVal location tag
      · have hz : zeroAxisB location (tag, t) = true := by
          simp [zeroAxisB, hsk, hb]
        rw [supportScalarGo_cons_zero hsk hb]
        simp [hz]
      · have hz : zeroAxisB location (tag, t) = false := by
          simp [zeroAxisB, hsk, hb]
        rw [supportScalarGo_cons_factor hsk hb, ih]
        simp only [List.any_cons, hz, Bool.false_or, List.filter_cons, hsk, Bool.not_false,
          if_pos, List.map_cons, List.prod_cons]
        split_ifs with h
        · rfl
        · ring

/-- `supportScalar` coincides with the spec's product description. -/
theorem supportScalar_eq_desc (location : Loc) (support : Support) :
    supportScalar location support = supportScalarDesc location support := by
  rw [supportScalar, supportScalarDesc, supportScalarGo_desc]
  split_ifs <;> simp

/-- Each ramp factor of a reachable (non-skipped, non-zero) axis lies in [0, 1]. -/
theorem axisFactor_mem_unit {location : Loc} {tag : Tag} {t : Triple}
    (h : skippedB location tag t = false)
    (hz : ¬(getVal location tag ≤ t.1 ∨ t.2.2 ≤ getVal location tag)) :
    0 ≤ axisFactor location tag t ∧ axisFactor location tag t ≤ 1 := by
  obtain ⟨lower, peak, upper⟩ := t
  simp only [skippedB, decide_eq_false_iff_not] at h
  push_neg at h
  obtain ⟨h1, h2, h3, h4, h5⟩ := h
  push_neg at hz
  obtain ⟨hl, hu⟩ := hz
  simp only [axisFactor]
  split_ifs with h6
  · have hd : 0 < peak - lower := by linarith
    constructor
    · apply div_nonneg <;> linarith
    · rw [div_le_one hd]; linarith
  · push_neg at h6
    have hvp : peak < getVal location tag := lt_of_le_of_ne h6 (Ne.symm h5)
    have hpu : peak < upper := lt_of_lt_of_le hvp (le_of_lt hu)
    have key : (getVal location tag - upper) / (peak - upper) =
        (upper - getVal location tag) / (upper - peak) := by
      rw [show getVal location tag - upper = -(upper - getVal location tag) from by ring,
        show peak - upper = -(upper - peak) from by ring, neg_div_neg_eq]
    rw [key]
    have hd : 0 < upper - peak := by linarith
    constructor
    · apply div_nonneg <;> linarith
    · rw [div_le_one hd]; linarith

/-- `supportScalar` always lands in [0, 1]. -/
theorem supportScalar_mem_unit (location : Loc) (support : Support) :
    0 ≤ supportScalar location support ∧ supportScalar location support ≤ 1 := by
  rw [supportScalar, supportScalarGo_desc]
  split_ifs with h
  · exact ⟨le_refl 0, by norm_num⟩
  · rw [one_mul]
    induction support with
    | nil => simp
    | cons head rest ih =>
      simp only [List.any_cons, Bool.or_eq_true] at h
      push_neg at h
      obtain ⟨hhead, hrest⟩ := h
      have ihr := ih (by simp [hrest])
      obtain ⟨tag, t⟩ := head
      by_cases hsk : skippedB location tag t = true
      · simpa [List.filter_cons, hsk] using ihr
      · rw [Bool.not_eq_true] at hsk
        have hb : ¬(getVal location tag ≤ t.1 ∨ t.2.2 ≤ getVal location tag) := by
          intro hb
          apply hhead
          simp [zeroAxisB, hsk, hb]
        have hf := axisFactor_mem_unit hsk hb
        simp only [List.filter_cons, hsk, Bool.not_false, if_pos, List.map_cons,
          List.prod_cons]
        constructor
        · exact mul_nonneg hf.1 ihr.1
        · calc axisFactor location tag t * ((List.filter _ rest).map _).prod
              ≤ 1 * 1 := by
                apply mul_le_mul hf.2 ihr.2 ihr.1 (by norm_num)
          _ = 1 := by norm_num

/-! ### The canonical master sort (`getMasterLocationsSortKeyFunc`) -/

/-- Sparsification performed at the top of the constructor: drop entries whose
value is 0 (`Object.keys(loc).filter((tag) => loc[tag] != 0)`). -/
def sparsify (loc : Loc) : Loc :=
  loc.filter (fun kv => kv.2 != 0)

/-- The values contributed to `axisPoints[axis]` by the single-axis locations. -/
def singleAxisValues (locs : List Loc) (axis : Tag) : List ℚ :=
  locs.filterMap (fun l =>
    match l with
    | [kv] => if kv.1 == axis then some kv.2 else none
    | _ => none)

/-- JS `axis in axisPoints && axisPoints[axis].has(value)`: the `axisPoints`
entry exists only if some single-axis location mentions the axis, and the set
always contains 0. -/
def axisPointsMemB (locs : List Loc) (axis : Tag) (v : ℚ) : Bool :=
  decide (singleAxisValues locs axis ≠ []) &&
    (decide (v = 0) || decide (v ∈ singleAxisValues locs axis))

/-- The number of "on-point" axes of a location. -/
def onPointCount (locs : List Loc) (a : Loc) : ℕ :=
  (a.filter (fun kv => axisPointsMemB locs kv.1 kv.2)).length

/-- JS `Object.keys(loc).sort()` (default string order). -/
def sortedKeys (l : Loc) : List Tag :=
  List.insertionSort (fun a b : Tag => a ≤ b) (keysOf l)

/-- The ordered axis list of a location: axes in `axisOrder` first (in
`axisOrder` sequence), then the remaining axes alphabetically. -/
def orderedAxes (axisOrder : List Tag) (loc : Loc) : List Tag :=
  axisOrder.filter (fun ax => hasKey loc ax) ++
    (sortedKeys loc).filter (fun ax => !axisOrder.contains ax)

/-- JS `axisOrder.includes(axis) ? axisOrder.indexOf(axis) : 0x10000`. -/
def axisOrderIndex (axisOrder : List Tag) (ax : Tag) : ℤ :=
  if axisOrder.contains ax then (axisOrder.findIdx (fun a => a == ax) : ℤ) else 65536

/-- Element-wise comparison of two index sequences up to the shorter length;
0 on a prefix tie (the source has no length tie-break at this stage). -/
def lexCompareInts : List ℤ → List ℤ → ℤ
  | [], _ => 0
  | _ :: _, [] => 0
  | a :: as, b :: bs => if a ≠ b then a - b else lexCompareInts as bs

/-- Element-wise comparison of the ordered axis lists as tag strings, then by
length on a prefix tie. -/
def compareTags : List Tag → List Tag → ℤ
  | [], [] => 0
  | [], _ :: bs => -((bs.length : ℤ) + 1)
  | _ :: as, [] => (as.length : ℤ) + 1
  | a :: as, b :: bs => if a ≠ b then (if a < b then -1 else 1) else compareTags as bs

/-- The comparator's `sign` helper. -/
def signQ (v : ℚ) : ℤ :=
  if v < 0 then -1 else if v > 0 then 1 else 0

/-- Final comparison stage: per axis, by sign of the value and then by
absolute value. -/
def compareSignAbs (a b : Loc) : List Tag → ℚ
  | [] => 0
  | axis :: rest =>
    if signQ (getVal a axis) ≠ signQ (getVal b axis) then
      ((signQ (getVal a axis) - signQ (getVal b axis) : ℤ) : ℚ)
    else if |getVal a axis| ≠ |getVal b axis| then |getVal a axis| - |getVal b axis|
    else compareSignAbs a b rest

/-- The comparator returned by `getMasterLocationsSortKeyFunc(locations,
axisOrder)`; `locs` is the sparsified location list from which `axisPoints`
is collected. -/
def sortKeyQ (locs : List Loc) (axisOrder : List Tag) (a b : Loc) : ℚ :=
  if a.length ≠ b.length then (a.length : ℚ) - (b.length : ℚ)
  else if onPointCount locs a ≠ onPointCount locs b then
    (onPointCount locs b : ℚ) - (onPointCount locs a : ℚ)
  else
    let oa := orderedAxes axisOrder a
    let ob := orderedAxes axisOrder b
    let c3 := lexCompareInts (oa.map (axisOrderIndex axisOrder)) (ob.map (axisOrderIndex axisOrder))
    if c3 ≠ 0 then (c3 : ℚ)
    else
      let c4 := compareTags oa ob
      if c4 ≠ 0 then (c4 : ℚ)
      else compareSignAbs a b oa

/-! ### Regions and the box-split refinement (`locationsToRegions`,
`computeMasterSupports`) -/

/-- All values a given axis takes across the locations that mention it. -/
def axisValues (locs : List Loc) (axis : Tag) : List ℚ :=
  locs.filterMap (fun l => if hasKey l axis then some (getVal l axis) else none)

/-- `minV[axis]` of `locationsToRegions` (0 is never used: the axis of a
region always occurs in some location). -/
def minVal (locs : List Loc) (axis : Tag) : ℚ :=
  match axisValues locs axis with
  | [] => 0
  | v :: vs => vs.foldl min v

/-- `maxV[axis]` of `locationsToRegions`. -/
def maxVal (locs : List Loc) (axis : Tag) : ℚ :=
  match axisValues locs axis with
  | [] => 0
  | v :: vs => vs.foldl max v

/-- `locationsToRegions()`: initial box regions for the sorted locations. -/
def locationsToRegions (locs : List Loc) : List Support :=
  locs.map (fun loc => loc.map (fun kv =>
    (kv.1, if kv.2 > 0 then ((0 : ℚ), kv.2, maxVal locs kv.1)
      else (minVal locs kv.1, kv.2, (0 : ℚ)))))

/-- Triple stored for an axis of a region (the `(0,0,0)` default is
unreachable: every read is guarded by a key-presence check). -/
def getTriple (s : Support) (tag : Tag) : Triple :=
  match s.find? (fun kv => kv.1 == tag) with
  | some kv => kv.2
  | none => (0, 0, 0)

/-- JS `region[axis] = t`: overwrite an existing key in place, append a new
key at the end (the append case is unreachable at the call site because the
superset check guarantees presence). -/
def setTriple (s : Support) (tag : Tag) (t : Triple) : Support :=
  if hasKey s tag then s.map (fun kv => if kv.1 == tag then (tag, t) else kv)
  else s ++ [(tag, t)]

/-- `isSuperset(locAxes(region), keys(prev_region))`. -/
def supersetB (region prev : Support) : Bool :=
  prev.all (fun kv => hasKey region kv.1)

/-- The `relevant` check of `computeMasterSupports`: every axis of the region
must appear in the earlier region, with the earlier region's peak equal to
this region's peak or strictly between this region's bounds. -/
def relevantB (region prev : Support) : Bool :=
  region.all (fun kv =>
    hasKey prev kv.1 &&
      decide ((getTriple prev kv.1).2.1 = kv.2.2.1 ∨
        (kv.2.1 < (getTriple prev kv.1).2.1 ∧ (getTriple prev kv.1).2.1 < kv.2.2.2)))

/-- One step of the `bestRatio`/`bestAxes` accumulation: the source resets the
axes on a strictly better ratio and then (in a separate `if`) appends on a
tie, so a strict improvement yields a singleton. -/
def updateBest (acc : ℚ × Support) (axis : Tag) (t : Triple) (r : ℚ) : ℚ × Support :=
  if r > acc.1 then (r, [(axis, t)])
  else if r = acc.1 then (acc.1, acc.2 ++ [(axis, t)])
  else acc

/-- Candidate computation for one axis of the earlier region.  (The rational
division is total in Lean; the denominator can vanish only when the
`relevant` guard preceding every call is violated, so the JS `±Infinity`
results are unreachable.) -/
def bestSplitFold (region : Support) (acc : ℚ × Support) (kv : Tag × Triple) : ℚ × Support :=
  let val := kv.2.2.1
  let t := getTriple region kv.1
  if val < t.2.1 then updateBest acc kv.1 (val, t.2.1, t.2.2) ((val - t.2.1) / (t.1 - t.2.1))
  else if t.2.1 < val then updateBest acc kv.1 (t.1, t.2.1, val) ((val - t.2.1) / (t.2.2 - t.2.1))
  else acc

/-- Apply the chosen `bestAxes` updates to the region. -/
def applyBest (region : Support) (best : Support) : Support :=
  best.foldl (fun r kv => setTriple r kv.1 kv.2) region

/-- One iteration of the inner `j` loop of `computeMasterSupports`: refine
`region` against one earlier region. -/
def stepRegion (region prev : Support) : Support :=
  if !(supersetB region prev) then region
  else if !(relevantB region prev) then region
  else applyBest region (prev.foldl (bestSplitFold region) (-1, [])).2

/-- `computeMasterSupports()`: each region is refined against the already
refined supports of all earlier masters (the source mutates `regions[i]` in
place, so earlier iterations see refined regions). -/
def computeMasterSupports (sortedLocs : List Loc) : List Support :=
  (locationsToRegions sortedLocs).foldl
    (fun supports region => supports ++ [supports.foldl stepRegion region]) []

/-- Row `i` of `computeDeltaWeights()`: the nonzero support scalars of the
earlier masters at this master's location, keyed by master index. -/
def deltaWeightRow (sortedLocs : List Loc) (supports : List Support) (i : ℕ) : List (ℕ × ℚ) :=
  (List.range i).filterMap (fun j =>
    let s := supportScalar (sortedLocs.getD i []) (supports.getD j [])
    if s ≠ 0 then some (j, s) else none)

/-- `computeDeltaWeights()`. -/
def computeDeltaWeights (sortedLocs : List Loc) (supports : List Support) :
    List (List (ℕ × ℚ)) :=
  (List.range sortedLocs.length).map (deltaWeightRow sortedLocs supports)

/-! ### The `VariationModel` class -/

structure VariationModel where
  origLocations : List Loc
  locations : List Loc
  supports : List Support
  axisOrder : List Tag
  mapping : List ℤ
  reverseMapping : List ℤ
  deltaWeights : List (List (ℕ × ℚ))
deriving DecidableEq, Repr

/-- JS `list.map(JSON.stringify).indexOf(JSON.stringify(x))`: on objects with
number values, `JSON.stringify` equality is exactly entry-list equality
(insertion order and all), so this is the first index of `x`, or `-1`. -/
def firstIdxGo (x : Loc) : ℕ → List Loc → ℤ
  | _, [] => -1
  | i, y :: ys => if y = x then (i : ℤ) else firstIdxGo x (i + 1) ys

def firstIdx (l : List Loc) (x : Loc) : ℤ :=
  firstIdxGo x 0 l

/-- The `VariationModel` constructor.  `JS Array.prototype.sort` is stable
(ES2019) and its output on a consistent comparator is the stable sort, which
`List.insertionSort` computes. -/
def mkVariationModel (locations : List Loc) (axisOrder : List Tag) : VariationModel :=
  let loc2 := locations.map sparsify
  let sorted := List.insertionSort (fun a b => sortKeyQ loc2 axisOrder a b ≤ 0) loc2
  let supports := computeMasterSupports sorted
  { origLocations := locations
    locations := sorted
    supports := supports
    axisOrder := axisOrder
    mapping := locations.map (fun l => firstIdx sorted l)
    reverseMapping := sorted.map (fun l => firstIdx locations l)
    deltaWeights := computeDeltaWeights sorted supports }

/-! ### JS numbers with `undefined`/`NaN`, and the model's operations -/

/-- A JS number as observed by this code: a real value, or
`undefined`/`NaN` (both falsy, both poisoning arithmetic). -/
abbrev JNum := Option ℚ

def jadd : JNum → JNum → JNum
  | some a, some b => some (a + b)
  | _, _ => none

def jsub : JNum → JNum → JNum
  | some a, some b => some (a - b)
  | _, _ => none

def jmul : JNum → JNum → JNum
  | some a, some b => some (a * b)
  | _, _ => none

/-- JS `array[i]` on a number array with a possibly negative index. -/
def jsIdx (l : List ℚ) (i : ℤ) : JNum :=
  if 0 ≤ i then l.get? i.toNat else none

/-- JS truthiness of a number: `0`, `-0`, `NaN` and `undefined` are falsy. -/
def truthy : JNum → Bool
  | some q => q != 0
  | none => false

/-- `getScalars(loc)`. -/
def getScalars (m : VariationModel) (loc : Loc) : List ℚ :=
  m.supports.map (supportScalar loc)

/-- Inner loop of `getMasterScalars`: `out[j] -= out[i] * weight` for the
entries of row `i`.  All indices are in range by construction (row keys are
`< i < out.length`), so the `getD` defaults are unreachable. -/
def backSubRow (row : List (ℕ × ℚ)) (i : ℕ) (out : List ℚ) : List ℚ :=
  row.foldl (fun o jw => o.set jw.1 (o.getD jw.1 0 - o.getD i 0 * jw.2)) out

/-- The reverse-order loop of `getMasterScalars`, processing rows
`i = n-1, …, 0`. -/
def backSubGo (rows : List (List (ℕ × ℚ))) : ℕ → List ℚ → List ℚ
  | 0, out => out
  | i + 1, out => backSubGo rows i (backSubRow (rows.getD i []) i out)

/-- `getMasterScalars(loc)`. -/
def getMasterScalars (m : VariationModel) (loc : Loc) : List JNum :=
  let out := backSubGo m.deltaWeights m.deltaWeights.length (getScalars m loc)
  m.mapping.map (fun idx => jsIdx out idx)

/-- Inner loop of `getDeltas` over one weight row (the `weight == 1` branch
of the source avoids a multiplication). -/
def getDeltasRow (out : List JNum) (row : List (ℕ × ℚ)) (delta : JNum) : JNum :=
  row.foldl (fun d jw =>
    if jw.2 = 1 then jsub d (out.getD jw.1 none)
    else jsub d (jmul (out.getD jw.1 none) (some jw.2))) delta

/-- The `forEach` of `getDeltas`; `mapping` is `this.reverseMapping`. -/
def getDeltasGo (masterValues : List ℚ) (mapping : List ℤ) :
    List (List (ℕ × ℚ)) → ℕ → List JNum → List JNum
  | [], _, out => out
  | row :: rest, i, out =>
    let d0 : JNum :=
      match mapping.get? i with
      | some k => jsIdx masterValues k
      | none => none
    getDeltasGo masterValues mapping rest (i + 1) (out ++ [getDeltasRow out row d0])

/-- `getDeltas(masterValues)` (the `console.assert` in the source does not
throw; the function always runs to completion). -/
def getDeltas (m : VariationModel) (masterValues : List ℚ) : List JNum :=
  getDeltasGo masterValues m.reverseMapping m.deltaWeights 0 []

/-- The `forEach` of `interpolateFromValuesAndScalars`: `v` is `null` until
the first non-skipped contribution. -/
def interpolateGo : List JNum → List JNum → Option JNum → Option JNum
  | [], _, v => v
  | value :: values, scalars, v =>
    if truthy (scalars.headD none) then
      match v with
      | none => interpolateGo values scalars.tail (some (jmul value (scalars.headD none)))
      | some x => interpolateGo values scalars.tail (some (jadd x (jmul value (scalars.headD none))))
    else interpolateGo values scalars.tail v

/-- `interpolateFromValuesAndScalars(values, scalars)`: `none` is the `null`
"no contribution" sentinel. -/
def interpolateFromValuesAndScalars (values scalars : List JNum) : Option JNum :=
  interpolateGo values scalars none

/-- `interpolateFromDeltasAndScalars` just forwards. -/
def interpolateFromDeltasAndScalars (deltas scalars : List JNum) : Option JNum :=
  interpolateFromValuesAndScalars deltas scalars

/-- `interpolateFromDeltas(loc, deltas)`. -/
def interpolateFromDeltas (m : VariationModel) (loc : Loc) (deltas : List JNum) : Option JNum :=
  interpolateFromDeltasAndScalars deltas ((getScalars m loc).map some)

/-- `interpolateFromMasters(loc, masterValues)`. -/
def interpolateFromMasters (m : VariationModel) (loc : Loc) (masterValues : List ℚ) :
    Option JNum :=
  interpolateFromValuesAndScalars (masterValues.map some) (getMasterScalars m loc)

/-- `interpolateFromMastersAndScalars(masterValues, scalars)`. -/
def interpolateFromMastersAndScalars (m : VariationModel) (masterValues : List ℚ)
    (scalars : List ℚ) : Option JNum :=
  interpolateFromDeltasAndScalars (getDeltas m masterValues) (scalars.map some)

/-! ### Submodels (`getSubModel`, `subList`) -/

/-- JS truthiness of `truth[ix]` in `subList`. -/
def truthyQ : Option ℚ → Bool
  | some q => q != 0
  | none => false

/-- `subList(truth, list)`: keep `list[ix]` when `truth[ix]` is truthy. -/
def subList (truth : List ℚ) (list : List α) : List α :=
  (list.enum.filter (fun p => truthyQ (truth.get? p.1))).map (fun p => p.2)

/-- The mutable `subModels` cache.  A JS `Map` keyed by `number[]` compares
keys by object identity (SameValueZero on references), and the key array is
freshly allocated by `items.filter(...)` on every call; we model references
by an allocation counter, on which a fresh key can never equal a stored
one. -/
structure SubModelCache where
  nextRef : ℕ
  entries : List (ℕ × VariationModel)
deriving DecidableEq, Repr

/-- `getSubModel(items)`, with the cache state passed explicitly. -/
def getSubModel (m : VariationModel) (cache : SubModelCache) (items : List (Option ℚ)) :
    (VariationModel × List (Option ℚ)) × SubModelCache :=
  if items.all (fun x => x.isSome) then ((m, items), cache)
  else
    let key : List ℚ := items.filterMap id
    let keyRef : ℕ := cache.nextRef
    match (cache.entries.find? (fun e => e.1 == keyRef)).map (fun e => e.2) with
    | some submodel => ((submodel, subList key items), cache)
    | none =>
      let submodel := mkVariationModel (subList key m.origLocations) []
      ((submodel, subList key items),
        ⟨keyRef + 1, cache.entries ++ [(keyRef, submodel)]⟩)

/-! ### Concrete inputs from the seed scenarios -/

/-- Jest's `toEqual` on two JS objects with comparable values: same key sets,
same values (insertion order is irrelevant). -/
def objEquivB [DecidableEq α] (a b : List (Tag × α)) : Bool :=
  a.all (fun kv => (b.find? (fun kv2 => kv2.1 == kv.1)).map (fun kv2 => kv2.2) == some kv.2) &&
    b.all (fun kv => (a.find? (fun kv2 => kv2.1 == kv.1)).map (fun kv2 => kv2.2) == some kv.2)

/-- The nine input locations of seed scenario 3. -/
def seed3Locations : List Loc :=
  [[("wght", 0.55), ("wdth", 0)],
   [("wght", -0.55), ("wdth", 0)],
   [("wght", -1), ("wdth", 0)],
   [("wght", 0), ("wdth", 1)],
   [("wght", 0.66), ("wdth", 1)],
   [("wght", 0.66), ("wdth", 0.66)],
   [("wght", 0), ("wdth", 0)],
   [("wght", 1), ("wdth", 1)],
   [("wght", 1), ("wdth", 0)]]

/-- The sorted locations seed scenario 3 requires. -/
def seed3ExpectedSorted : List Loc :=
  [[], [("wght", -0.55)], [("wght", -1)], [("wght", 0.55)], [("wght", 1)], [("wdth", 1)],
   [("wdth", 1), ("wght", 1)], [("wdth", 1), ("wght", 0.66)],
   [("wdth", 0.66), ("wght", 0.66)]]

/-- The supports seed scenario 3 requires. -/
def seed3ExpectedSupports : List Support :=
  [[], [("wght", (-1, -0.55, 0))], [("wght", (-1, -1, -0.55))], [("wght", (0, 0.55, 1))],
   [("wght", (0.55, 1, 1))], [("wdth", (0, 1, 1))],
   [("wdth", (0, 1, 1)), ("wght", (0, 1, 1))],
   [("wdth", (0, 1, 1)), ("wght", (0, 0.66, 1))],
   [("wdth", (0, 0.66, 1)), ("wght", (0, 0.66, 1))]]

/-! ### Claim C2: canonical sort and box-split derivation on seed scenario 3 -/

/-- C2: constructing a `VariationModel` from the nine locations of seed
scenario 3 with axisOrder `["wght"]` yields exactly the listed nine sorted
locations (the empty location first) and exactly the listed nine supports,
element for element (JS object equality, insertion order irrelevant). -/
theorem c2_canonical_sort_and_supports :
    ((mkVariationModel seed3Locations ["wght"]).locations.length = 9 ∧
      (mkVariationModel seed3Locations ["wght"]).supports.length = 9) ∧
    ((mkVariationModel seed3Locations ["wght"]).locations.zip seed3ExpectedSorted).all
      (fun p => objEquivB p.1 p.2) = true ∧
    ((mkVariationModel seed3Locations ["wght"]).supports.zip seed3ExpectedSupports).all
      (fun p => objEquivB p.1 p.2) = true := by
  with_unfolding_all decide

/-! ### Claim C4: the submodel cache never returns a cached instance -/

/-- C4 (code bug): the `subModels` map is keyed by the freshly allocated
`key` array, which a JS `Map` compares by reference, so the lookup misses on
every call: after two `getSubModel` calls with identical items (present
indices `[0]` of two), the cache holds two separately constructed entries
and the second call did not return the model stored by the first. -/
theorem c4_cache_never_hits :
    (getSubModel (mkVariationModel [[], [("wght", 1)]] [])
        (getSubModel (mkVariationModel [[], [("wght", 1)]] []) ⟨0, []⟩ [some 1, none]).2
        [some 1, none]).2 =
      ⟨2, [(0, mkVariationModel [[]] []), (1, mkVariationModel [[]] [])]⟩ := by
  with_unfolding_all decide

/-! ### Claim C5: getSubModel restricts by the wrong predicate -/

/-- C5 (code bug): `getSubModel` passes the array of present item values
(`items.filter(x => x != null)`) to `subList` as the truth mask, so for the
three-master model and `items = [5, null, 7]` it builds the submodel over
locations 0 and 1 (instead of the present indices 0 and 2) and returns
`[5, null]` (instead of the present values `[5, 7]`). -/
theorem c5_getSubModel_wrong_restriction :
    (getSubModel (mkVariationModel [[], [("wght", 1)], [("wdth", 1)]] []) ⟨0, []⟩
        [some 5, none, some 7]).1 =
      (mkVariationModel [[], [("wght", 1)]] [], [some 5, none]) := by
  with_unfolding_all decide

/-! ### Claim C6: the constructor does not reject duplicate masters -/

/-- C6 (code bug): the constructor contains no duplicate check and cannot
throw; with two masters equal after sparsification it silently returns a
model in which both masters map to sorted index 0. -/
theorem c6_constructor_accepts_duplicates :
    (mkVariationModel [[("wght", 0.5)], [("wght", 0.5)]] ["wght"]).mapping = [0, 0] ∧
    (mkVariationModel [[("wght", 0.5)], [("wght", 0.5)]] ["wght"]).origLocations.length = 2 := by
  with_unfolding_all decide

/-! ### Claim C8: getDeltas does not fail on a length mismatch -/

/-- C8 (code bug): `console.assert` does not throw, so `getDeltas` on a
two-master model given a single value runs to completion and returns
`[7, NaN]` (the `NaN` arising from `masterValues[1] = undefined`). -/
theorem c8_getDeltas_length_mismatch_returns :
    getDeltas (mkVariationModel [[], [("wght", 1)]] []) [7] = [some 7, none] := by
  with_unfolding_all decide

/-! ### Counterexamples for claims C1, C3, C10 (as stated) -/

/-- C1 counterexample: the claim fails as stated.  With the duplicate-master
model `[{}, {wght:1}, {wght:1}]` (whose construction succeeds: the code never
fails), at sorted index `k = 2` and `v = [0, 20, 30]`,
`interpolateFromMasters(sortedLocations[2], v)` is the `null` sentinel and
not `v[reverseMapping[2]] = v[1] = 20`.  With the model
`[{wght:0}, {wght:0.5}]` (distinct masters, in range), `reverseMapping[0]`
is `-1`, so `v[reverseMapping[0]]` does not even denote an entry of `v`. -/
theorem c1_counterexample :
    ¬ (interpolateFromMasters (mkVariationModel [[], [("wght", 1)], [("wght", 1)]] ["wght"])
        ((mkVariationModel [[], [("wght", 1)], [("wght", 1)]] ["wght"]).locations.getD 2 [])
        [0, 20, 30] =
      some (some (([0, 20, 30] : List ℚ).getD
        ((mkVariationModel [[], [("wght", 1)], [("wght", 1)]] ["wght"]).reverseMapping.getD
          2 0).toNat 0))) ∧
    (mkVariationModel [[], [("wght", 1)], [("wght", 1)]] ["wght"]).reverseMapping = [0, 1, 1] ∧
    interpolateFromMasters (mkVariationModel [[], [("wght", 1)], [("wght", 1)]] ["wght"])
      ((mkVariationModel [[], [("wght", 1)], [("wght", 1)]] ["wght"]).locations.getD 2 [])
      [0, 20, 30] = none ∧
    (mkVariationModel [[("wght", 0)], [("wght", 0.5)]] ["wght"]).reverseMapping = [-1, 1] := by
  with_unfolding_all decide

/-- C3 counterexample: the claim fails as stated.  For the model built from
the single location `{wght: 0}` (construction succeeds), `JSON.stringify` of
the original location never matches its sparsified form, so `mapping` and
`reverseMapping` are `[-1]`: not permutations of `{0}`.  For the
duplicate-master model both mappings are `[0, 0]`: not injective. -/
theorem c3_counterexample :
    (mkVariationModel [[("wght", 0)]] ["wght"]).mapping = [-1] ∧
    (mkVariationModel [[("wght", 0)]] ["wght"]).reverseMapping = [-1] ∧
    (mkVariationModel [[("wght", 0.5)], [("wght", 0.5)]] []).mapping = [0, 0] ∧
    (mkVariationModel [[("wght", 0.5)], [("wght", 0.5)]] []).reverseMapping = [0, 0] := by
  with_unfolding_all decide

/-- C10 counterexample: the claim fails as stated.  For the model
`[{wght:0}, {wght:0.5}]` at `loc = {wght:0.5}` with `v = [10, 20]`, the
delta path yields `NaN` while the master-scalar path yields `20`; for the
duplicate-master model the delta path yields `10` while the master-scalar
path yields the `null` sentinel.  In both cases the two paths disagree, and
in the second they also disagree on the no-contribution sentinel. -/
theorem c10_counterexample :
    interpolateFromMastersAndScalars (mkVariationModel [[("wght", 0)], [("wght", 0.5)]] ["wght"])
        [10, 20]
        (getScalars (mkVariationModel [[("wght", 0)], [("wght", 0.5)]] ["wght"])
          [("wght", 0.5)]) = some none ∧
    interpolateFromMasters (mkVariationModel [[("wght", 0)], [("wght", 0.5)]] ["wght"])
        [("wght", 0.5)] [10, 20] = some (some 20) ∧
    interpolateFromMastersAndScalars (mkVariationModel [[("wght", 0.5)], [("wght", 0.5)]] [])
        [10, 20]
        (getScalars (mkVariationModel [[("wght", 0.5)], [("wght", 0.5)]] [])
          [("wght", 0.5)]) = some (some 10) ∧
    interpolateFromMasters (mkVariationModel [[("wght", 0.5)], [("wght", 0.5)]] [])
        [("wght", 0.5)] [10, 20] = none := by
  with_unfolding_all decide

/-! ### Claim C7: supportScalar correctness and bound -/

/-- C7: for every normalized location and support, `supportScalar` equals the
spec's skip/zero/ramp product description and lies in [0, 1]; and the five
seed-scenario-1 evaluations hold exactly. -/
theorem c7_supportScalar_correct :
    (∀ (location : Loc) (support : Support),
      supportScalar location support = supportScalarDesc location support ∧
      0 ≤ supportScalar location support ∧ supportScalar location support ≤ 1) ∧
    supportScalar [] [] = 1 ∧
    supportScalar [("wght", 0.2)] [] = 1 ∧
    supportScalar [("wght", 0.2)] [("wght", (0, 2, 3))] = 0.1 ∧
    supportScalar [("wght", 2.5)] [("wght", (0, 2, 4))] = 0.75 ∧
    supportScalar [("wght", 3)] [("wght", (0, 2, 2))] = 0 := by
  refine ⟨fun location support => ⟨supportScalar_eq_desc location support,
    (supportScalar_mem_unit location support).1, (supportScalar_mem_unit location support).2⟩,
    ?_, ?_, ?_, ?_, ?_⟩ <;> with_unfolding_all decide

/-! ### Claim C9: interpolateFromValuesAndScalars and the null sentinel -/

theorem interpolateGo_nil_scalars (values : List JNum) :
    ∀ acc : Option JNum, interpolateGo values [] acc = acc := by
  induction values with
  | nil => intro acc; rfl
  | cons v vs ih =>
    intro acc
    simp only [interpolateGo, List.headD_nil, truthy, Bool.false_eq_true, if_false,
      List.tail_nil]
    exact ih acc

theorem interpolateGo_acc (values : List ℚ) :
    ∀ (scalars : List ℚ) (acc : ℚ),
      interpolateGo (values.map some) (scalars.map some) (some (some acc)) =
      some (some (acc + (((values.zip scalars).filter (fun p => p.2 ≠ 0)).map
        (fun p => p.1 * p.2)).sum)) := by
  induction values with
  | nil => intro scalars acc; simp [interpolateGo]
  | cons v vs ih =>
    intro scalars acc
    cases scalars with
    | nil =>
      simp only [List.map_cons, List.map_nil, List.zip_nil_right, List.filter_nil,
        List.map_nil, List.sum_nil, add_zero]
      exact interpolateGo_nil_scalars _ _
    | cons s ss =>
      by_cases hs : s = 0
      · simp only [List.map_cons, interpolateGo, List.headD_cons, truthy, hs, bne_self_eq_false,
          Bool.false_eq_true, if_false, List.tail_cons, List.zip_cons_cons, List.filter_cons,
          decide_eq_true_eq]
        rw [ih ss acc]
        simp
      · simp only [List.map_cons, interpolateGo, List.headD_cons, truthy, List.tail_cons,
          List.zip_cons_cons, List.filter_cons, decide_eq_true_eq]
        rw [if_pos (by simp [bne, hs]), if_pos hs]
        simp only [jmul, jadd]
        rw [ih ss (acc + v * s)]
        simp only [List.map_cons, List.sum_cons]
        congr 2
        ring

theorem interpolateGo_fromNull (values : List ℚ) :
    ∀ scalars : List ℚ,
      interpolateFromValuesAndScalars (values.map some) (scalars.map some) =
      if ∀ p ∈ values.zip scalars, p.2 = 0 then none
      else some (some ((((values.zip scalars).filter (fun p => p.2 ≠ 0)).map
        (fun p => p.1 * p.2)).sum)) := by
  induction values with
  | nil => intro scalars; simp [interpolateFromValuesAndScalars, interpolateGo]
  | cons v vs ih =>
    intro scalars
    cases scalars with
    | nil =>
      simp only [List.map_cons, List.map_nil, List.zip_nil_right]
      rw [interpolateFromValuesAndScalars, interpolateGo_nil_scalars]
      simp
    | cons s ss =>
      by_cases hs : s = 0
      · simp only [interpolateFromValuesAndScalars, List.map_cons, interpolateGo,
          List.headD_cons, truthy, hs, bne_self_eq_false, Bool.false_eq_true, if_false,
          List.tail_cons, List.zip_cons_cons, List.filter_cons, decide_eq_true_eq]
        rw [show interpolateGo (List.map some vs) (List.map some ss) none =
          interpolateFromValuesAndScalars (vs.map some) (ss.map some) from rfl, ih ss]
        by_cases hc : ∀ p ∈ vs.zip ss, p.2 = (0 : ℚ)
        · rw [if_pos hc, if_pos (by
            intro p hp
            rcases List.mem_cons.mp hp with h | h
            · rw [h]
            · exact hc p h)]
        · rw [if_neg hc, if_neg (by
            intro hall
            exact hc (fun p hp => hall p (List.mem_cons_of_mem _ hp))), if_neg (by simp)]
      · simp only [interpolateFromValuesAndScalars, List.map_cons, interpolateGo,
          List.headD_cons, truthy, List.tail_cons, List.zip_cons_cons, List.filter_cons,
          decide_eq_true_eq]
        rw [if_pos (by simp [bne, hs]), if_pos hs]
        simp only [jmul]
        rw [interpolateGo_acc vs ss (v * s)]
        rw [if_neg (by
          intro hall
          exact hs (hall (v, s) (by simp)))]
        simp only [List.map_cons, List.sum_cons]

theorem all_zip_snd_iff (values : List ℚ) :
    ∀ scalars : List ℚ, values.length = scalars.length →
      ((∀ p ∈ values.zip scalars, p.2 = (0 : ℚ)) ↔ (∀ s ∈ scalars, s = 0)) := by
  induction values with
  | nil =>
    intro scalars h
    cases scalars with
    | nil => simp
    | cons s ss => simp at h
  | cons v vs ih =>
    intro scalars h
    cases scalars with
    | nil => simp at h
    | cons s ss =>
      simp only [List.zip_cons_cons, List.mem_cons, List.length_cons, Nat.succ.injEq] at h ⊢
      constructor
      · intro hall t ht
        rcases ht with ht | ht
        · exact ht ▸ hall (v, s) (Or.inl rfl)
        · exact ((ih ss h).mp (fun p hp => hall p (Or.inr hp))) t ht
      · intro hall p hp
        rcases hp with hp | hp
        · rw [hp]; exact hall s (Or.inl rfl)
        · exact ((ih ss h).mpr (fun t ht => hall t (Or.inr ht))) p hp

/-- C9: for every equal-length pair of (real) values and scalars,
`interpolateFromValuesAndScalars` returns the sum of `value·scalar` over
exactly the indices with nonzero scalar, and returns the distinct `null`
sentinel (not 0, not an error) exactly when every entry was skipped, i.e.
exactly when every scalar is zero. -/
theorem c9_interpolateFromValuesAndScalars (values scalars : List ℚ)
    (h : values.length = scalars.length) :
    interpolateFromValuesAndScalars (values.map some) (scalars.map some) =
      if ∀ s ∈ scalars, s = 0 then none
      else some (some ((((values.zip scalars).filter (fun p => p.2 ≠ 0)).map
        (fun p => p.1 * p.2)).sum)) := by
  rw [interpolateGo_fromNull values scalars]
  exact if_congr (all_zip_snd_iff values scalars h) rfl rfl

/-- Instantiation of C9 at a concrete input, discharging its hypothesis. -/
theorem c9_witness :
    ([10, 20, 30] : List ℚ).length = ([0, 3, 0] : List ℚ).length ∧
    interpolateFromValuesAndScalars (([10, 20, 30] : List ℚ).map some)
        (([0, 3, 0] : List ℚ).map some) =
      (if ∀ s ∈ ([0, 3, 0] : List ℚ), s = 0 then none
       else some (some (((((([10, 20, 30] : List ℚ).zip ([0, 3, 0] : List ℚ))).filter
         (fun p => p.2 ≠ 0)).map (fun p => p.1 * p.2)).sum))) :=
  ⟨rfl, c9_interpolateFromValuesAndScalars [10, 20, 30] [0, 3, 0] rfl⟩

/-! ### Constructor plumbing: sparsification, the sort permutation, and the
stringify-based mapping -/

theorem mkVariationModel_origLocations (L : List Loc) (A : List Tag) :
    (mkVariationModel L A).origLocations = L := rfl

theorem mkVariationModel_locations (L : List Loc) (A : List Tag) :
    (mkVariationModel L A).locations =
      List.insertionSort (fun a b => sortKeyQ (L.map sparsify) A a b ≤ 0) (L.map sparsify) := rfl

theorem mkVariationModel_mapping (L : List Loc) (A : List Tag) :
    (mkVariationModel L A).mapping =
      L.map (fun l => firstIdx (mkVariationModel L A).locations l) := rfl

theorem mkVariationModel_reverseMapping (L : List Loc) (A : List Tag) :
    (mkVariationModel L A).reverseMapping =
      (mkVariationModel L A).locations.map (fun l => firstIdx L l) := rfl

theorem mkVariationModel_supports (L : List Loc) (A : List Tag) :
    (mkVariationModel L A).supports = computeMasterSupports (mkVariationModel L A).locations := rfl

theorem mkVariationModel_deltaWeights (L : List Loc) (A : List Tag) :
    (mkVariationModel L A).deltaWeights =
      computeDeltaWeights (mkVariationModel L A).locations (mkVariationModel L A).supports := rfl

theorem sparsify_eq_self {l : Loc} (h : ∀ kv ∈ l, kv.2 ≠ 0) : sparsify l = l := by
  rw [sparsify, List.filter_eq_self]
  intro kv hkv
  simpa [bne] using h kv hkv

theorem map_sparsify_eq_self {locations : List Loc}
    (h : ∀ l ∈ locations, ∀ kv ∈ l, kv.2 ≠ 0) : locations.map sparsify = locations := by
  induction locations with
  | nil => rfl
  | cons l ls ih =>
    rw [List.map_cons, sparsify_eq_self (h l (List.mem_cons_self l ls)),
      ih (fun x hx => h x (List.mem_cons_of_mem l hx))]

theorem getD_eq_get {α : Type _} (l : List α) (d : α) {i : ℕ} (h : i < l.length) :
    l.getD i d = l.get ⟨i, h⟩ := by
  simp [List.getD_eq_getElem?_getD, List.getElem?_eq_getElem h, List.get_eq_getElem]

theorem getD_eq_getElem {α : Type _} (l : List α) (d : α) {i : ℕ} (h : i < l.length) :
    l.getD i d = l[i] := by
  rw [List.getD_eq_getElem?_getD, List.getElem?_eq_getElem h]
  rfl

theorem firstIdxGo_mem (x : Loc) :
    ∀ (l : List Loc) (i : ℕ), x ∈ l →
      ∃ k : ℕ, firstIdxGo x i l = ((i + k : ℕ) : ℤ) ∧ k < l.length ∧ l.getD k [] = x ∧
        ∀ j < k, l.getD j [] ≠ x := by
  intro l
  induction l with
  | nil => intro i h; cases h
  | cons y ys ih =>
    intro i h
    by_cases hy : y = x
    · refine ⟨0, ?_, Nat.succ_pos _, by simpa using hy, by intro j hj; omega⟩
      simp [firstIdxGo, hy]
    · have hx : x ∈ ys := by
        rcases List.mem_cons.mp h with h' | h'
        · exact absurd h'.symm hy
        · exact h'
      obtain ⟨k, hk1, hk2, hk3, hk4⟩ := ih (i + 1) hx
      refine ⟨k + 1, ?_, by simpa using Nat.succ_lt_succ hk2, by simpa using hk3, ?_⟩
      · rw [show firstIdxGo x i (y :: ys) = firstIdxGo x (i + 1) ys from by
          simp [firstIdxGo, hy], hk1]
        congr 1
        omega
      · intro j hj
        cases j with
        | zero => simpa using hy
        | succ j' =>
          have : j' < k := by omega
          simpa using hk4 j' this

theorem firstIdx_mem {l : List Loc} {x : Loc} (h : x ∈ l) :
    ∃ k : ℕ, firstIdx l x = (k : ℤ) ∧ k < l.length ∧ l.getD k [] = x ∧
      ∀ j < k, l.getD j [] ≠ x := by
  obtain ⟨k, hk1, hk2, hk3, hk4⟩ := firstIdxGo_mem x l 0 h
  exact ⟨k, by simpa using hk1, hk2, hk3, hk4⟩

theorem firstIdx_getD_of_nodup {l : List Loc} (hnd : l.Nodup) {n : ℕ} (hn : n < l.length) :
    firstIdx l (l.getD n []) = (n : ℤ) := by
  have hmem : l.getD n [] ∈ l := by
    rw [getD_eq_get l [] hn]
    exact l.get_mem n hn
  obtain ⟨k, hk1, hk2, hk3, _⟩ := firstIdx_mem hmem
  have hkn : k = n := by
    have h1 : l.get ⟨k, hk2⟩ = l.get ⟨n, hn⟩ := by
      rw [← getD_eq_get l [] hk2, ← getD_eq_get l [] hn, hk3]
    have h2 := List.nodup_iff_injective_get.mp hnd h1
    exact congrArg Fin.val h2
  rw [hk1, hkn]

theorem getD_map_eq {α β : Type _} (f : α → β) (l : List α) (dα : α) (dβ : β) {n : ℕ}
    (hn : n < l.length) : (l.map f).getD n dβ = f (l.getD n dα) := by
  rw [getD_eq_get _ _ (by simpa using hn), getD_eq_get _ _ hn]
  simp [List.get_eq_getElem, List.getElem_map]

theorem getD_mem_of_lt {l : List Loc} {n : ℕ} (hn : n < l.length) : l.getD n [] ∈ l := by
  rw [getD_eq_get l [] hn]
  exact l.get_mem n hn

/-! ### Claim C3 (amended): mapping and reverseMapping are mutually inverse
permutations for models whose original locations have no explicit-zero
entries and are pairwise distinct -/

/-- C3 (amended): for a model built from locations that contain no
explicit-zero entries (so `JSON.stringify` of an original equals that of its
sparsified copy) and that are pairwise distinct as written, `mapping` and
`reverseMapping` are mutually inverse permutations of `{0..N-1}`:
`reverseMapping[mapping[i]] == i` and `mapping[reverseMapping[i]] == i` for
every index `i`. -/
theorem mapping_reverseMapping_spec (locations : List Loc) (axisOrder : List Tag)
    (hnz : ∀ l ∈ locations, ∀ kv ∈ l, kv.2 ≠ 0)
    (hnd : locations.Nodup) :
    ∀ i < locations.length,
      (∃ j : ℕ, j < locations.length ∧
        (mkVariationModel locations axisOrder).mapping.getD i 0 = (j : ℤ) ∧
        (mkVariationModel locations axisOrder).reverseMapping.getD j 0 = (i : ℤ)) ∧
      (∃ k : ℕ, k < locations.length ∧
        (mkVariationModel locations axisOrder).reverseMapping.getD i 0 = (k : ℤ) ∧
        (mkVariationModel locations axisOrder).mapping.getD k 0 = (i : ℤ)) := by
  intro i hi
  have hid : locations.map sparsify = locations := map_sparsify_eq_self hnz
  have hperm : (mkVariationModel locations axisOrder).locations.Perm locations := by
    rw [mkVariationModel_locations, hid]
    exact List.perm_insertionSort _ locations
  have hlen : (mkVariationModel locations axisOrder).locations.length = locations.length :=
    hperm.length_eq
  have hndS : (mkVariationModel locations axisOrder).locations.Nodup :=
    (hperm.nodup_iff).mpr hnd
  have hmap : ∀ n, n < locations.length →
      (mkVariationModel locations axisOrder).mapping.getD n 0 =
        firstIdx (mkVariationModel locations axisOrder).locations (locations.getD n []) := by
    intro n hn
    rw [mkVariationModel_mapping]
    exact getD_map_eq _ locations [] 0 hn
  have hrev : ∀ n, n < locations.length →
      (mkVariationModel locations axisOrder).reverseMapping.getD n 0 =
        firstIdx locations
          ((mkVariationModel locations axisOrder).locations.getD n []) := by
    intro n hn
    rw [mkVariationModel_reverseMapping]
    exact getD_map_eq _ _ [] 0 (by rw [hlen]; exact hn)
  constructor
  · obtain ⟨j, hj1, hj2, hj3, _⟩ :=
      firstIdx_mem (hperm.mem_iff.mpr (getD_mem_of_lt hi))
    refine ⟨j, by rw [← hlen]; exact hj2, ?_, ?_⟩
    · rw [hmap i hi, hj1]
    · rw [hrev j (by rw [← hlen]; exact hj2), hj3, firstIdx_getD_of_nodup hnd hi]
  · have hiS : i < (mkVariationModel locations axisOrder).locations.length := by
      rw [hlen]; exact hi
    obtain ⟨k, hk1, hk2, hk3, _⟩ :=
      firstIdx_mem (hperm.subset (getD_mem_of_lt hiS))
    refine ⟨k, hk2, ?_, ?_⟩
    · rw [hrev i hi, hk1]
    · rw [hmap k hk2, hk3, firstIdx_getD_of_nodup hndS hiS]

/-- C3 (amended): for a model built from locations that contain no
explicit-zero entries and are pairwise distinct as written, `mapping` and
`reverseMapping` are mutually inverse permutations of `{0..N-1}`. -/
theorem c3_mapping_reverseMapping_inverse (locations : List Loc) (axisOrder : List Tag)
    (hnz : ∀ l ∈ locations, ∀ kv ∈ l, kv.2 ≠ 0)
    (hnd : locations.Nodup) :
    ∀ i < locations.length,
      (∃ j : ℕ, j < locations.length ∧
        (mkVariationModel locations axisOrder).mapping.getD i 0 = (j : ℤ) ∧
        (mkVariationModel locations axisOrder).reverseMapping.getD j 0 = (i : ℤ)) ∧
      (∃ k : ℕ, k < locations.length ∧
        (mkVariationModel locations axisOrder).reverseMapping.getD i 0 = (k : ℤ) ∧
        (mkVariationModel locations axisOrder).mapping.getD k 0 = (i : ℤ)) :=
  mapping_reverseMapping_spec locations axisOrder hnz hnd

/-- Instantiation of the amended C3 at a concrete two-master model,
discharging its hypotheses. -/
theorem c3_witness :
    ((∀ l ∈ ([[], [("wght", 1)]] : List Loc), ∀ kv ∈ l, kv.2 ≠ 0) ∧
      ([[], [("wght", 1)]] : List Loc).Nodup) ∧
    (∀ i < ([[], [("wght", 1)]] : List Loc).length,
      (∃ j : ℕ, j < ([[], [("wght", 1)]] : List Loc).length ∧
        (mkVariationModel [[], [("wght", 1)]] ["wght"]).mapping.getD i 0 = (j : ℤ) ∧
        (mkVariationModel [[], [("wght", 1)]] ["wght"]).reverseMapping.getD j 0 = (i : ℤ)) ∧
      (∃ k : ℕ, k < ([[], [("wght", 1)]] : List Loc).length ∧
        (mkVariationModel [[], [("wght", 1)]] ["wght"]).reverseMapping.getD i 0 = (k : ℤ) ∧
        (mkVariationModel [[], [("wght", 1)]] ["wght"]).mapping.getD k 0 = (i : ℤ))) :=
  ⟨⟨by with_unfolding_all decide, by with_unfolding_all decide⟩,
    c3_mapping_reverseMapping_inverse [[], [("wght", 1)]] ["wght"]
      (by with_unfolding_all decide) (by with_unfolding_all decide)⟩

/-! ### Structure of the delta-weight rows -/

/-- The weight stored in a sparse row for column `n` (0 when absent). -/
def rowW (row : List (ℕ × ℚ)) (n : ℕ) : ℚ :=
  ((row.find? (fun p => p.1 == n)).map (fun p => p.2)).getD 0

theorem sum_map_range (n : ℕ) (f : ℕ → ℚ) :
    ((List.range n).map f).sum = ∑ j ∈ Finset.range n, f j := by
  induction n with
  | zero => simp
  | succ m ih =>
    rw [List.range_succ, List.map_append, List.sum_append, Finset.sum_range_succ, ih]
    simp

theorem rowW_filterMap (S : ℕ → ℚ) :
    ∀ (l : List ℕ) (n : ℕ),
      rowW (l.filterMap (fun j => if S j ≠ 0 then some (j, S j) else none)) n =
        if n ∈ l then S n else 0 := by
  intro l
  induction l with
  | nil => intro n; simp [rowW]
  | cons h t ih =>
    intro n
    by_cases hS : S h ≠ 0
    · rw [List.filterMap_cons_some (by rw [if_pos hS])]
      by_cases hn : h = n
      · subst hn
        simp [rowW, List.find?_cons_of_pos]
      · rw [rowW, List.find?_cons_of_neg _ (by simp [hn]), ← rowW, ih n]
        simp only [List.mem_cons]
        rw [if_congr (show (n ∈ t) ↔ (n = h ∨ n ∈ t) from by
          constructor
          · exact fun h' => Or.inr h'
          · rintro (h' | h')
            · exact absurd h'.symm hn
            · exact h') rfl rfl]
    · rw [List.filterMap_cons_none (by rw [if_neg hS]), ih n]
      push_neg at hS
      by_cases hn : h = n
      · subst hn
        by_cases hmem : h ∈ t
        · simp [hmem, hS]
        · simp [hmem, hS]
      · simp only [List.mem_cons]
        rw [if_congr (show (n ∈ t) ↔ (n = h ∨ n ∈ t) from by
          constructor
          · exact fun h' => Or.inr h'
          · rintro (h' | h')
            · exact absurd h'.symm hn
            · exact h') rfl rfl]

/-- Shorthand for the support-scalar matrix of a sorted-location/support
pair: `S i j` is the scalar of support `j` at sorted location `i`. -/
def scalarMatrix (locs : List Loc) (supports : List Support) (i j : ℕ) : ℚ :=
  supportScalar (locs.getD i []) (supports.getD j [])

theorem deltaWeightRow_eq_filterMap (locs : List Loc) (supports : List Support) (i : ℕ) :
    deltaWeightRow locs supports i =
      (List.range i).filterMap (fun j =>
        if scalarMatrix locs supports i j ≠ 0 then some (j, scalarMatrix locs supports i j)
        else none) := rfl

theorem rowW_deltaWeightRow (locs : List Loc) (supports : List Support) (i n : ℕ) :
    rowW (deltaWeightRow locs supports i) n =
      if n < i then scalarMatrix locs supports i n else 0 := by
  rw [deltaWeightRow_eq_filterMap, rowW_filterMap]
  simp [List.mem_range]

theorem deltaWeightRow_keys_lt (locs : List Loc) (supports : List Support) (i : ℕ) :
    ∀ p ∈ deltaWeightRow locs supports i, p.1 < i := by
  intro p hp
  rw [deltaWeightRow_eq_filterMap] at hp
  obtain ⟨j, hj, hf⟩ := List.mem_filterMap.mp hp
  by_cases hS : scalarMatrix locs supports i j ≠ 0
  · rw [if_pos hS] at hf
    cases hf
    exact List.mem_range.mp hj
  · rw [if_neg hS] at hf
    cases hf

theorem filterMap_if_map_fst (S : ℕ → ℚ) (l : List ℕ) :
    (l.filterMap (fun j => if S j ≠ 0 then some (j, S j) else none)).map Prod.fst =
      l.filter (fun j => decide (S j ≠ 0)) := by
  induction l with
  | nil => rfl
  | cons h t ih =>
    by_cases hS : S h ≠ 0
    · rw [List.filterMap_cons_some (by rw [if_pos hS]), List.map_cons,
        List.filter_cons_of_pos (by simpa using hS), ih]
    · rw [List.filterMap_cons_none (by rw [if_neg hS]),
        List.filter_cons_of_neg (by simpa using hS), ih]

theorem deltaWeightRow_keys_nodup (locs : List Loc) (supports : List Support) (i : ℕ) :
    ((deltaWeightRow locs supports i).map Prod.fst).Nodup := by
  rw [deltaWeightRow_eq_filterMap, filterMap_if_map_fst]
  exact (List.nodup_range i).filter _

/-- Fold of a subtraction over a row, as a list sum. -/
theorem foldl_sub_eq_sum (g : ℕ × ℚ → ℚ) :
    ∀ (row : List (ℕ × ℚ)) (c : ℚ),
      row.foldl (fun a p => a - g p) c = c - (row.map g).sum := by
  intro row
  induction row with
  | nil => intro c; simp
  | cons p t ih =>
    intro c
    rw [List.foldl_cons, ih, List.map_cons, List.sum_cons]
    ring

/-- Sum of a function of the entries of a delta-weight row, as a sum over
`range i`. -/
theorem deltaWeightRow_sum (locs : List Loc) (supports : List Support) (i : ℕ)
    (g : ℕ → ℚ) :
    ((deltaWeightRow locs supports i).map (fun p => g p.1 * p.2)).sum =
      ∑ j ∈ Finset.range i, g j * scalarMatrix locs supports i j := by
  rw [deltaWeightRow_eq_filterMap, ← sum_map_range]
  induction (List.range i) with
  | nil => rfl
  | cons h t ih =>
    by_cases hS : scalarMatrix locs supports i h ≠ 0
    · rw [List.filterMap_cons_some (by rw [if_pos hS]), List.map_cons, List.sum_cons,
        List.map_cons, List.sum_cons, ih]
    · rw [List.filterMap_cons_none (by rw [if_neg hS]), List.map_cons, List.sum_cons, ih]
      push_neg at hS
      rw [hS]
      ring

theorem computeDeltaWeights_length (locs : List Loc) (supports : List Support) :
    (computeDeltaWeights locs supports).length = locs.length := by
  rw [computeDeltaWeights, List.length_map, List.length_range]

theorem computeDeltaWeights_getD (locs : List Loc) (supports : List Support) {i : ℕ}
    (hi : i < locs.length) :
    (computeDeltaWeights locs supports).getD i [] = deltaWeightRow locs supports i := by
  rw [computeDeltaWeights]
  rw [getD_map_eq (deltaWeightRow locs supports) (List.range locs.length) 0 []
    (by simpa using hi)]
  congr 1
  rw [getD_eq_get _ _ (by simpa using hi)]
  simp

/-! ### Closed form of getDeltas: the forward back-substitution -/

/-- The mathematical delta sequence: `d i = f i - ∑_{j<i} d j · S i j`,
where `f i` is the master value at sorted index `i` and `S` the
support-scalar matrix. -/
def deltaValue (locs : List Loc) (supports : List Support) (f : ℕ → ℚ) : ℕ → ℚ
  | i => f i - ∑ j ∈ (Finset.range i).attach,
      deltaValue locs supports f j.1 * scalarMatrix locs supports i j.1
termination_by i => i
decreasing_by exact Finset.mem_range.mp j.2

theorem deltaValue_eq (locs : List Loc) (supports : List Support) (f : ℕ → ℚ) (i : ℕ) :
    deltaValue locs supports f i =
      f i - ∑ j ∈ Finset.range i, deltaValue locs supports f j * scalarMatrix locs supports i j := by
  rw [deltaValue]
  congr 1
  exact Finset.sum_attach (Finset.range i)
    (fun j => deltaValue locs supports f j * scalarMatrix locs supports i j)

theorem getD_range (m j : ℕ) (hj : j < m) : (List.range m).getD j 0 = j := by
  rw [getD_eq_get _ _ (by simpa using hj)]
  simp [List.get_eq_getElem]

theorem getDeltasRow_some (dvals : ℕ → ℚ) (m : ℕ) :
    ∀ (row : List (ℕ × ℚ)), (∀ p ∈ row, p.1 < m) → ∀ c : ℚ,
      getDeltasRow ((List.range m).map (fun j => some (dvals j))) row (some c) =
        some (c - (row.map (fun p => dvals p.1 * p.2)).sum) := by
  intro row
  induction row with
  | nil => intro _ c; simp [getDeltasRow]
  | cons p t ih =>
    intro hkeys c
    have hp1 : p.1 < m := hkeys p (List.mem_cons_self p t)
    have hout : ((List.range m).map (fun j => some (dvals j))).getD p.1 none =
        some (dvals p.1) := by
      rw [getD_map_eq (fun j => some (dvals j)) (List.range m) 0 none (by simpa using hp1),
        getD_range m p.1 hp1]
    rw [getDeltasRow, List.foldl_cons]
    by_cases hw : p.2 = 1
    · rw [if_pos hw, hout]
      have := ih (fun q hq => hkeys q (List.mem_cons_of_mem p hq)) (c - dvals p.1)
      rw [getDeltasRow] at this
      rw [show jsub (some c) (some (dvals p.1)) = some (c - dvals p.1) from rfl, this,
        List.map_cons, List.sum_cons, hw]
      congr 1
      ring
    · rw [if_neg hw, hout]
      have := ih (fun q hq => hkeys q (List.mem_cons_of_mem p hq)) (c - dvals p.1 * p.2)
      rw [getDeltasRow] at this
      rw [show jsub (some c) (jmul (some (dvals p.1)) (some p.2)) =
        some (c - dvals p.1 * p.2) from rfl, this, List.map_cons, List.sum_cons]
      congr 1
      ring

theorem getDeltasGo_inv (mv : List ℚ) (revMap : List ℤ) (locs : List Loc)
    (supports : List Support) (f : ℕ → ℚ)
    (hd0 : ∀ i < locs.length, (match revMap.get? i with
        | some k => jsIdx mv k
        | none => none) = some (f i)) :
    ∀ (fuel m : ℕ), locs.length - m = fuel → m ≤ locs.length →
      getDeltasGo mv revMap ((computeDeltaWeights locs supports).drop m) m
        ((List.range m).map (fun j => some (deltaValue locs supports f j))) =
      (List.range locs.length).map (fun j => some (deltaValue locs supports f j)) := by
  intro fuel
  induction fuel with
  | zero =>
    intro m hfuel hm
    have hm' : m = locs.length := by omega
    subst hm'
    rw [List.drop_eq_nil_of_le (by rw [computeDeltaWeights_length])]
    rfl
  | succ fl ih =>
    intro m hfuel hm
    have hmN : m < locs.length := by omega
    have hdrop : (computeDeltaWeights locs supports).drop m =
        deltaWeightRow locs supports m :: (computeDeltaWeights locs supports).drop (m + 1) := by
      rw [← computeDeltaWeights_getD locs supports hmN]
      rw [getD_eq_get _ _ (by rw [computeDeltaWeights_length]; exact hmN)]
      exact List.drop_eq_getElem_cons (by rw [computeDeltaWeights_length]; exact hmN)
    rw [hdrop, getDeltasGo]
    have hstep : getDeltasRow ((List.range m).map (fun j =>
        some (deltaValue locs supports f j))) (deltaWeightRow locs supports m)
        (match revMap.get? m with | some k => jsIdx mv k | none => none) =
        some (deltaValue locs supports f m) := by
      rw [hd0 m hmN, getDeltasRow_some (deltaValue locs supports f) m _
        (deltaWeightRow_keys_lt locs supports m) (f m), deltaWeightRow_sum,
        ← deltaValue_eq]
    rw [hstep, show ((List.range m).map (fun j => some (deltaValue locs supports f j))) ++
        [some (deltaValue locs supports f m)] =
        (List.range (m + 1)).map (fun j => some (deltaValue locs supports f j)) from by
      rw [List.range_succ, List.map_append]
      rfl]
    exact ih (m + 1) (by omega) (by omega)

/-- `getDeltas` on a model with a valid reverse mapping returns exactly the
mathematical forward back-substitution deltas. -/
theorem getDeltas_closed (m : VariationModel) (mv : List ℚ) (f : ℕ → ℚ)
    (hrows : m.deltaWeights = computeDeltaWeights m.locations m.supports)
    (hd0 : ∀ i < m.locations.length, (match m.reverseMapping.get? i with
        | some k => jsIdx mv k
        | none => none) = some (f i)) :
    getDeltas m mv = (List.range m.locations.length).map
      (fun j => some (deltaValue m.locations m.supports f j)) := by
  rw [getDeltas, hrows]
  have := getDeltasGo_inv mv m.reverseMapping m.locations m.supports f hd0
    m.locations.length 0 (by omega) (by omega)
  simpa using this

/-! ### The reverse back-substitution of getMasterScalars -/

theorem rowW_nil (n : ℕ) : rowW [] n = 0 := rfl

theorem rowW_cons_self (k : ℕ) (w : ℚ) (t : List (ℕ × ℚ)) : rowW ((k, w) :: t) k = w := by
  simp [rowW, List.find?_cons_of_pos]

theorem rowW_cons_ne {k n : ℕ} (h : k ≠ n) (w : ℚ) (t : List (ℕ × ℚ)) :
    rowW ((k, w) :: t) n = rowW t n := by
  rw [rowW, List.find?_cons_of_neg _ (by simp [h]), ← rowW]

theorem rowW_eq_zero_of_not_mem {t : List (ℕ × ℚ)} {n : ℕ} (h : n ∉ t.map Prod.fst) :
    rowW t n = 0 := by
  induction t with
  | nil => rfl
  | cons p t ih =>
    rw [List.map_cons, List.mem_cons] at h
    push_neg at h
    cases p with
    | mk k w =>
      rw [rowW_cons_ne (fun hk => h.1 hk.symm) w t]
      exact ih h.2

theorem rowW_eq_zero_of_keys_lt {t : List (ℕ × ℚ)} {m n : ℕ}
    (hk : ∀ p ∈ t, p.1 < m) (hn : m ≤ n) : rowW t n = 0 := by
  apply rowW_eq_zero_of_not_mem
  intro hmem
  obtain ⟨p, hp, hp1⟩ := List.mem_map.mp hmem
  have := hk p hp
  omega

theorem getD_set_self (l : List ℚ) (j : ℕ) (a : ℚ) (hj : j < l.length) :
    (l.set j a).getD j 0 = a := by
  rw [getD_eq_get _ _ (by simpa using hj)]
  simp [List.get_eq_getElem, List.getElem_set_self]

theorem getD_set_ne (l : List ℚ) {j n : ℕ} (a : ℚ) (h : j ≠ n) :
    (l.set j a).getD n 0 = l.getD n 0 := by
  simp [List.getD_eq_getElem?_getD, List.getElem?_set_ne h]

theorem getD_zero_of_le (l : List ℚ) {n : ℕ} (h : l.length ≤ n) : l.getD n 0 = 0 := by
  rw [List.getD_eq_getElem?_getD, List.getElem?_eq_none h]
  rfl

theorem backSubRow_spec (i : ℕ) :
    ∀ (row : List (ℕ × ℚ)), (∀ p ∈ row, p.1 < i) → (row.map Prod.fst).Nodup →
      ∀ (out : List ℚ), i < out.length →
      (backSubRow row i out).length = out.length ∧
      ∀ n, n < out.length → (backSubRow row i out).getD n 0 =
        out.getD n 0 - rowW row n * out.getD i 0 := by
  intro row
  induction row with
  | nil =>
    intro _ _ out hi
    exact ⟨rfl, fun n hn => by simp [backSubRow, rowW_nil]⟩
  | cons p t ih =>
    intro hkeys hnd out hi
    have hp1 : p.1 < i := hkeys p (List.mem_cons_self p t)
    have hp1len : p.1 < out.length := lt_trans hp1 hi
    have hstep : backSubRow (p :: t) i out =
        backSubRow t i (out.set p.1 (out.getD p.1 0 - out.getD i 0 * p.2)) := by
      rw [backSubRow, List.foldl_cons]
      rfl
    set o1 := out.set p.1 (out.getD p.1 0 - out.getD i 0 * p.2) with ho1
    have hlen1 : o1.length = out.length := by rw [ho1, List.length_set]
    have hio1 : o1.getD i 0 = out.getD i 0 := getD_set_ne out _ (by omega)
    have hndt : (t.map Prod.fst).Nodup := by
      rw [List.map_cons] at hnd
      exact hnd.of_cons
    have hp1nt : p.1 ∉ t.map Prod.fst := by
      rw [List.map_cons] at hnd
      exact (List.nodup_cons.mp hnd).1
    obtain ⟨hlen2, hvals⟩ := ih (fun q hq => hkeys q (List.mem_cons_of_mem p hq)) hndt o1
      (by omega)
    constructor
    · rw [hstep, hlen2, hlen1]
    · intro n hn
      rw [hstep, hvals n (by omega), hio1]
      by_cases hpn : p.1 = n
      · subst hpn
        rw [getD_set_self out p.1 _ hp1len, rowW_eq_zero_of_not_mem hp1nt,
          show rowW (p :: t) p.1 = p.2 from rowW_cons_self p.1 p.2 t]
        ring
      · rw [ho1, getD_set_ne out _ hpn,
          show rowW (p :: t) n = rowW t n from by
            cases p with
            | mk k w => exact rowW_cons_ne hpn w t]

theorem backSubGo_spec (rows : List (List (ℕ × ℚ)))
    (hkeys : ∀ i, ∀ p ∈ rows.getD i [], p.1 < i)
    (hnd : ∀ i, ((rows.getD i []).map Prod.fst).Nodup) :
    ∀ (m : ℕ) (out : List ℚ), m ≤ out.length →
      (backSubGo rows m out).length = out.length ∧
      (∀ p, m ≤ p → (backSubGo rows m out).getD p 0 = out.getD p 0) ∧
      (∀ j, j < out.length → out.getD j 0 = (backSubGo rows m out).getD j 0 +
        ∑ i ∈ Finset.range m, rowW (rows.getD i []) j * (backSubGo rows m out).getD i 0) := by
  intro m
  induction m with
  | zero =>
    intro out hm
    exact ⟨rfl, fun p _ => rfl, fun j hj => by simp [backSubGo]⟩
  | succ m ih =>
    intro out hm
    obtain ⟨hl1, hv1⟩ := backSubRow_spec m (rows.getD m []) (hkeys m) (hnd m) out (by omega)
    have hgo : backSubGo rows (m + 1) out = backSubGo rows m (backSubRow (rows.getD m []) m out) :=
      rfl
    set o1 := backSubRow (rows.getD m []) m out with ho1
    obtain ⟨hl2, hfix, hinv⟩ := ih o1 (by omega)
    have hm0 : (backSubGo rows m o1).getD m 0 = out.getD m 0 := by
      rw [hfix m (le_refl m), hv1 m (by omega),
        rowW_eq_zero_of_keys_lt (hkeys m) (le_refl m)]
      ring
    refine ⟨by rw [hgo, hl2, hl1], ?_, ?_⟩
    · intro p hp
      rw [hgo, hfix p (by omega)]
      by_cases hpl : p < out.length
      · rw [hv1 p hpl, rowW_eq_zero_of_keys_lt (hkeys m) (by omega)]
        ring
      · rw [getD_zero_of_le o1 (by omega), getD_zero_of_le out (by omega)]
    · intro j hj
      have hstep : out.getD j 0 = o1.getD j 0 + rowW (rows.getD m []) j * out.getD m 0 := by
        rw [hv1 j hj]
        ring
      rw [hstep, hinv j (by omega), Finset.sum_range_succ, hgo, ← hm0]
      ring

/-! ### Model-level bookkeeping: lengths, row well-formedness, permutation
functions -/

theorem getD_default_of_le {α : Type _} (l : List α) (d : α) {n : ℕ} (h : l.length ≤ n) :
    l.getD n d = d := by
  rw [List.getD_eq_getElem?_getD, List.getElem?_eq_none h]
  rfl

theorem foldl_append_build_length {α β : Type _} (f : List β → α → β) :
    ∀ (l : List α) (acc : List β),
      (l.foldl (fun s r => s ++ [f s r]) acc).length = acc.length + l.length := by
  intro l
  induction l with
  | nil => intro acc; simp
  | cons h t ih =>
    intro acc
    rw [List.foldl_cons, ih]
    simp
    omega

theorem locationsToRegions_length (locs : List Loc) :
    (locationsToRegions locs).length = locs.length := by
  rw [locationsToRegions, List.length_map]

theorem computeMasterSupports_length (locs : List Loc) :
    (computeMasterSupports locs).length = locs.length := by
  rw [computeMasterSupports, foldl_append_build_length]
  rw [locationsToRegions_length]
  simp

theorem model_locations_length (locations : List Loc) (axisOrder : List Tag) :
    (mkVariationModel locations axisOrder).locations.length = locations.length := by
  rw [mkVariationModel_locations, List.length_insertionSort, List.length_map]

theorem model_supports_length (locations : List Loc) (axisOrder : List Tag) :
    (mkVariationModel locations axisOrder).supports.length = locations.length := by
  rw [mkVariationModel_supports, computeMasterSupports_length, model_locations_length]

theorem model_deltaWeights_length (locations : List Loc) (axisOrder : List Tag) :
    (mkVariationModel locations axisOrder).deltaWeights.length = locations.length := by
  rw [mkVariationModel_deltaWeights, computeDeltaWeights_length, model_locations_length]

theorem model_mapping_length (locations : List Loc) (axisOrder : List Tag) :
    (mkVariationModel locations axisOrder).mapping.length = locations.length := by
  rw [mkVariationModel_mapping, List.length_map]

theorem model_reverseMapping_length (locations : List Loc) (axisOrder : List Tag) :
    (mkVariationModel locations axisOrder).reverseMapping.length = locations.length := by
  rw [mkVariationModel_reverseMapping, List.length_map, model_locations_length]

theorem model_rows_getD (locations : List Loc) (axisOrder : List Tag) {i : ℕ}
    (hi : i < locations.length) :
    (mkVariationModel locations axisOrder).deltaWeights.getD i [] =
      deltaWeightRow (mkVariationModel locations axisOrder).locations
        (mkVariationModel locations axisOrder).supports i := by
  rw [mkVariationModel_deltaWeights]
  exact computeDeltaWeights_getD _ _ (by rw [model_locations_length]; exact hi)

theorem model_rows_keys (locations : List Loc) (axisOrder : List Tag) :
    ∀ i, ∀ p ∈ (mkVariationModel locations axisOrder).deltaWeights.getD i [], p.1 < i := by
  intro i p hp
  by_cases hi : i < locations.length
  · rw [model_rows_getD locations axisOrder hi] at hp
    exact deltaWeightRow_keys_lt _ _ i p hp
  · rw [getD_default_of_le _ _ (by rw [model_deltaWeights_length]; omega)] at hp
    cases hp

theorem model_rows_nodup (locations : List Loc) (axisOrder : List Tag) :
    ∀ i, (((mkVariationModel locations axisOrder).deltaWeights.getD i []).map Prod.fst).Nodup := by
  intro i
  by_cases hi : i < locations.length
  · rw [model_rows_getD locations axisOrder hi]
    exact deltaWeightRow_keys_nodup _ _ i
  · rw [getD_default_of_le _ _ (by rw [model_deltaWeights_length]; omega)]
    exact List.nodup_nil

/-- The forward permutation as a natural-number function. -/
def mapNat (m : VariationModel) (k : ℕ) : ℕ :=
  (m.mapping.getD k 0).toNat

/-- The reverse permutation as a natural-number function. -/
def revNat (m : VariationModel) (i : ℕ) : ℕ :=
  (m.reverseMapping.getD i 0).toNat

theorem model_perm_facts (locations : List Loc) (axisOrder : List Tag)
    (hnz : ∀ l ∈ locations, ∀ kv ∈ l, kv.2 ≠ 0) (hnd : locations.Nodup) :
    ∀ i < locations.length,
      (mapNat (mkVariationModel locations axisOrder) i < locations.length ∧
        (mkVariationModel locations axisOrder).mapping.getD i 0 =
          (mapNat (mkVariationModel locations axisOrder) i : ℤ) ∧
        revNat (mkVariationModel locations axisOrder)
          (mapNat (mkVariationModel locations axisOrder) i) = i) ∧
      (revNat (mkVariationModel locations axisOrder) i < locations.length ∧
        (mkVariationModel locations axisOrder).reverseMapping.getD i 0 =
          (revNat (mkVariationModel locations axisOrder) i : ℤ) ∧
        mapNat (mkVariationModel locations axisOrder)
          (revNat (mkVariationModel locations axisOrder) i) = i) := by
  intro i hi
  obtain ⟨⟨j, hj1, hj2, hj3⟩, ⟨k, hk1, hk2, hk3⟩⟩ :=
    mapping_reverseMapping_spec locations axisOrder hnz hnd i hi
  constructor
  · have hmapi : mapNat (mkVariationModel locations axisOrder) i = j := by
      rw [mapNat, hj2]
      simp
    refine ⟨by rw [hmapi]; exact hj1, by rw [hmapi]; exact hj2, ?_⟩
    rw [hmapi, revNat, hj3]
    simp
  · have hrevi : revNat (mkVariationModel locations axisOrder) i = k := by
      rw [revNat, hk2]
      simp
    refine ⟨by rw [hrevi]; exact hk1, by rw [hrevi]; exact hk2, ?_⟩
    rw [hrevi, mapNat, hk3]
    simp

/-! ### Closed forms of the two interpolation paths -/

theorem sum_filter_ne_zero (l : List (ℚ × ℚ)) :
    ((l.filter (fun p => decide (p.2 ≠ 0))).map (fun p => p.1 * p.2)).sum =
      (l.map (fun p => p.1 * p.2)).sum := by
  induction l with
  | nil => rfl
  | cons p t ih =>
    by_cases hp : p.2 = 0
    · rw [List.filter_cons_of_neg (by simp [hp]), ih, List.map_cons, List.sum_cons, hp]
      ring
    · rw [List.filter_cons_of_pos (by simp [hp]), List.map_cons, List.sum_cons, ih,
        List.map_cons, List.sum_cons]

theorem sum_zip_eq :
    ∀ (A B : List ℚ), A.length = B.length →
      ((A.zip B).map (fun p => p.1 * p.2)).sum =
        ∑ j ∈ Finset.range A.length, A.getD j 0 * B.getD j 0 := by
  intro A
  induction A with
  | nil => intro B h; simp
  | cons a as ih =>
    intro B h
    cases B with
    | nil => simp at h
    | cons b bs =>
      simp only [List.length_cons, Nat.succ.injEq] at h
      rw [List.zip_cons_cons, List.map_cons, List.sum_cons, ih bs h, List.length_cons,
        Finset.sum_range_succ']
      simp [List.getD_cons_succ, List.getD_cons_zero]
      ring

/-- The `out` array of `getMasterScalars` after the reverse loop. -/
def modelOut (m : VariationModel) (loc : Loc) : List ℚ :=
  backSubGo m.deltaWeights m.deltaWeights.length (getScalars m loc)

theorem getMasterScalars_eq (m : VariationModel) (loc : Loc) :
    getMasterScalars m loc = m.mapping.map (fun idx => jsIdx (modelOut m loc) idx) := rfl

/-- The master value seen at sorted index `i` (through `reverseMapping`). -/
def masterAt (m : VariationModel) (v : List ℚ) (i : ℕ) : ℚ :=
  v.getD (revNat m i) 0

/-- The mathematical deltas of the model for master values `v`. -/
def deltasQ (m : VariationModel) (v : List ℚ) : ℕ → ℚ :=
  deltaValue m.locations m.supports (masterAt m v)

theorem deltasQ_def (m : VariationModel) (v : List ℚ) :
    deltasQ m v = deltaValue m.locations m.supports (masterAt m v) := rfl

theorem getScalars_length (m : VariationModel) (loc : Loc) :
    (getScalars m loc).length = m.supports.length := by
  rw [getScalars, List.length_map]

theorem model_backSub (locations : List Loc) (axisOrder : List Tag) (loc : Loc) :
    (modelOut (mkVariationModel locations axisOrder) loc).length = locations.length ∧
    (∀ j, j < locations.length →
      (getScalars (mkVariationModel locations axisOrder) loc).getD j 0 =
        (modelOut (mkVariationModel locations axisOrder) loc).getD j 0 +
        ∑ i ∈ Finset.range locations.length,
          rowW ((mkVariationModel locations axisOrder).deltaWeights.getD i []) j *
            (modelOut (mkVariationModel locations axisOrder) loc).getD i 0) := by
  have hs : (getScalars (mkVariationModel locations axisOrder) loc).length = locations.length := by
    rw [getScalars_length, model_supports_length]
  have hw : (mkVariationModel locations axisOrder).deltaWeights.length = locations.length :=
    model_deltaWeights_length locations axisOrder
  obtain ⟨h1, _, h3⟩ := backSubGo_spec (mkVariationModel locations axisOrder).deltaWeights
    (model_rows_keys locations axisOrder) (model_rows_nodup locations axisOrder)
    (mkVariationModel locations axisOrder).deltaWeights.length
    (getScalars (mkVariationModel locations axisOrder) loc) (by omega)
  refine ⟨by rw [modelOut, h1, hs], fun j hj => ?_⟩
  have := h3 j (by omega)
  rw [modelOut, ← hw]
  exact this

theorem model_out_zero_iff (locations : List Loc) (axisOrder : List Tag) (loc : Loc) :
    (∀ j, j < locations.length →
        (modelOut (mkVariationModel locations axisOrder) loc).getD j 0 = 0) ↔
      (∀ x ∈ getScalars (mkVariationModel locations axisOrder) loc, x = 0) := by
  obtain ⟨hlen, hrel⟩ := model_backSub locations axisOrder loc
  have hs : (getScalars (mkVariationModel locations axisOrder) loc).length = locations.length := by
    rw [getScalars_length, model_supports_length]
  constructor
  · intro hout x hx
    obtain ⟨n, hn⟩ := List.get_of_mem hx
    have hnl : n.1 < locations.length := by rw [← hs]; exact n.isLt
    have hxd : (getScalars (mkVariationModel locations axisOrder) loc).getD n.1 0 = x := by
      rw [getD_eq_get _ _ n.isLt]
      exact hn
    rw [← hxd, hrel n.1 hnl, hout n.1 hnl, Finset.sum_eq_zero (fun i hi => by
      rw [hout i (Finset.mem_range.mp hi)]
      ring)]
    ring
  · intro hsz
    have key : ∀ t : ℕ, ∀ j, j < locations.length → locations.length - j ≤ t →
        (modelOut (mkVariationModel locations axisOrder) loc).getD j 0 = 0 := by
      intro t
      induction t with
      | zero => intro j hj hle; omega
      | succ t ih =>
        intro j hj hle
        have hsj : (getScalars (mkVariationModel locations axisOrder) loc).getD j 0 = 0 := by
          apply hsz
          rw [getD_eq_get _ _ (by omega)]
          exact List.get_mem _ _ _
        have hrelj := hrel j hj
        have hsum : ∑ i ∈ Finset.range locations.length,
            rowW ((mkVariationModel locations axisOrder).deltaWeights.getD i []) j *
              (modelOut (mkVariationModel locations axisOrder) loc).getD i 0 = 0 := by
          apply Finset.sum_eq_zero
          intro i hi
          by_cases hij : i ≤ j
          · rw [rowW_eq_zero_of_keys_lt (model_rows_keys locations axisOrder i) hij]
            ring
          · rw [ih i (Finset.mem_range.mp hi) (by omega)]
            ring
        rw [hsj, hsum] at hrelj
        linarith
    exact fun j hj => key locations.length j hj (by omega)

theorem model_hd0 (locations : List Loc) (axisOrder : List Tag)
    (hnz : ∀ l ∈ locations, ∀ kv ∈ l, kv.2 ≠ 0) (hnd : locations.Nodup)
    (v : List ℚ) (hv : v.length = locations.length) :
    ∀ i < (mkVariationModel locations axisOrder).locations.length,
      (match (mkVariationModel locations axisOrder).reverseMapping.get? i with
        | some k => jsIdx v k
        | none => none) = some (masterAt (mkVariationModel locations axisOrder) v i) := by
  intro i hi
  have hiN : i < locations.length := by rw [← model_locations_length locations axisOrder]; exact hi
  obtain ⟨_, hrev⟩ := model_perm_facts locations axisOrder hnz hnd i hiN
  obtain ⟨hr1, hr2, _⟩ := hrev
  have hlen : (mkVariationModel locations axisOrder).reverseMapping.length = locations.length :=
    model_reverseMapping_length locations axisOrder
  have hilen : i < (mkVariationModel locations axisOrder).reverseMapping.length := by
    rw [hlen]
    exact hiN
  have hget : (mkVariationModel locations axisOrder).reverseMapping.get? i =
      some ((revNat (mkVariationModel locations axisOrder) i : ℕ) : ℤ) := by
    rw [List.get?_eq_get hilen, ← getD_eq_get _ (0 : ℤ) hilen, hr2]
  rw [hget]
  show jsIdx v ((revNat (mkVariationModel locations axisOrder) i : ℕ) : ℤ) = _
  have hrv : revNat (mkVariationModel locations axisOrder) i < v.length := by
    rw [hv]
    exact hr1
  rw [jsIdx, if_pos (Int.natCast_nonneg _), Int.toNat_natCast, List.get?_eq_get hrv, masterAt,
    getD_eq_get v 0 hrv]

/-- Closed form of the delta path
`interpolateFromMastersAndScalars(v, getScalars(loc))`. -/
theorem deltaPath_closed (locations : List Loc) (axisOrder : List Tag)
    (hnz : ∀ l ∈ locations, ∀ kv ∈ l, kv.2 ≠ 0) (hnd : locations.Nodup)
    (loc : Loc) (v : List ℚ) (hv : v.length = locations.length) :
    interpolateFromMastersAndScalars (mkVariationModel locations axisOrder) v
        (getScalars (mkVariationModel locations axisOrder) loc) =
      if ∀ x ∈ getScalars (mkVariationModel locations axisOrder) loc, x = 0 then none
      else some (some (∑ j ∈ Finset.range locations.length,
        deltasQ (mkVariationModel locations axisOrder) v j *
          (getScalars (mkVariationModel locations axisOrder) loc).getD j 0)) := by
  have hN : (mkVariationModel locations axisOrder).locations.length = locations.length :=
    model_locations_length locations axisOrder
  have hs : (getScalars (mkVariationModel locations axisOrder) loc).length = locations.length := by
    rw [getScalars_length, model_supports_length]
  have hdel := getDeltas_closed (mkVariationModel locations axisOrder) v
    (masterAt (mkVariationModel locations axisOrder) v)
    (mkVariationModel_deltaWeights locations axisOrder)
    (model_hd0 locations axisOrder hnz hnd v hv)
  rw [← deltasQ_def (mkVariationModel locations axisOrder) v] at hdel
  rw [interpolateFromMastersAndScalars, interpolateFromDeltasAndScalars, hdel, hN]
  rw [show (List.range locations.length).map
      (fun j => some (deltasQ (mkVariationModel locations axisOrder) v j)) =
      ((List.range locations.length).map
        (deltasQ (mkVariationModel locations axisOrder) v)).map some from by
    rw [List.map_map]
    rfl]
  rw [interpolateGo_fromNull]
  have hDlen : ((List.range locations.length).map
      (deltasQ (mkVariationModel locations axisOrder) v)).length = locations.length := by
    rw [List.length_map, List.length_range]
  rw [if_congr (by rw [all_zip_snd_iff _ _ (by rw [hDlen, hs])]) rfl rfl]
  by_cases hc : ∀ x ∈ getScalars (mkVariationModel locations axisOrder) loc, x = 0
  · rw [if_pos hc, if_pos hc]
  · rw [if_neg hc, if_neg hc]
    congr 2
    rw [sum_filter_ne_zero, sum_zip_eq _ _ (by rw [hDlen, hs]), hDlen]
    apply Finset.sum_congr rfl
    intro j hj
    congr 1
    rw [getD_map_eq (deltasQ (mkVariationModel locations axisOrder) v)
      (List.range locations.length) 0 0 (by simpa using Finset.mem_range.mp hj),
      getD_range _ _ (Finset.mem_range.mp hj)]

theorem model_sum_swap (locations : List Loc) (axisOrder : List Tag)
    (hnz : ∀ l ∈ locations, ∀ kv ∈ l, kv.2 ≠ 0) (hnd : locations.Nodup)
    (loc : Loc) (v : List ℚ) (hv : v.length = locations.length) :
    ∑ j ∈ Finset.range locations.length,
        deltasQ (mkVariationModel locations axisOrder) v j *
          (getScalars (mkVariationModel locations axisOrder) loc).getD j 0 =
      ∑ k ∈ Finset.range locations.length,
        v.getD k 0 *
          (modelOut (mkVariationModel locations axisOrder) loc).getD
            (mapNat (mkVariationModel locations axisOrder) k) 0 := by
  obtain ⟨holen, hrel⟩ := model_backSub locations axisOrder loc
  have step1 : ∑ j ∈ Finset.range locations.length,
      deltasQ (mkVariationModel locations axisOrder) v j *
        (getScalars (mkVariationModel locations axisOrder) loc).getD j 0 =
      ∑ i ∈ Finset.range locations.length,
        masterAt (mkVariationModel locations axisOrder) v i *
          (modelOut (mkVariationModel locations axisOrder) loc).getD i 0 := by
    calc ∑ j ∈ Finset.range locations.length,
        deltasQ (mkVariationModel locations axisOrder) v j *
          (getScalars (mkVariationModel locations axisOrder) loc).getD j 0
        = ∑ j ∈ Finset.range locations.length,
            (deltasQ (mkVariationModel locations axisOrder) v j *
              (modelOut (mkVariationModel locations axisOrder) loc).getD j 0 +
            ∑ i ∈ Finset.range locations.length,
              deltasQ (mkVariationModel locations axisOrder) v j *
                (rowW ((mkVariationModel locations axisOrder).deltaWeights.getD i []) j *
                  (modelOut (mkVariationModel locations axisOrder) loc).getD i 0)) := by
          apply Finset.sum_congr rfl
          intro j hj
          rw [hrel j (Finset.mem_range.mp hj), mul_add, Finset.mul_sum]
      _ = ∑ j ∈ Finset.range locations.length,
            deltasQ (mkVariationModel locations axisOrder) v j *
              (modelOut (mkVariationModel locations axisOrder) loc).getD j 0 +
          ∑ i ∈ Finset.range locations.length, ∑ j ∈ Finset.range locations.length,
            deltasQ (mkVariationModel locations axisOrder) v j *
              (rowW ((mkVariationModel locations axisOrder).deltaWeights.getD i []) j *
                (modelOut (mkVariationModel locations axisOrder) loc).getD i 0) := by
          rw [Finset.sum_add_distrib, Finset.sum_comm]
      _ = ∑ i ∈ Finset.range locations.length,
            (deltasQ (mkVariationModel locations axisOrder) v i +
              ∑ j ∈ Finset.range i,
                deltasQ (mkVariationModel locations axisOrder) v j *
                  scalarMatrix (mkVariationModel locations axisOrder).locations
                    (mkVariationModel locations axisOrder).supports i j) *
              (modelOut (mkVariationModel locations axisOrder) loc).getD i 0 := by
          rw [← Finset.sum_add_distrib]
          apply Finset.sum_congr rfl
          intro i hi
          have hiN : i < locations.length := Finset.mem_range.mp hi
          have hrow : ∀ j, rowW ((mkVariationModel locations axisOrder).deltaWeights.getD i []) j =
              if j < i then scalarMatrix (mkVariationModel locations axisOrder).locations
                (mkVariationModel locations axisOrder).supports i j else 0 := by
            intro j
            rw [model_rows_getD locations axisOrder hiN, rowW_deltaWeightRow]
          have hsum : ∑ j ∈ Finset.range locations.length,
              deltasQ (mkVariationModel locations axisOrder) v j *
                (rowW ((mkVariationModel locations axisOrder).deltaWeights.getD i []) j *
                  (modelOut (mkVariationModel locations axisOrder) loc).getD i 0) =
              (∑ j ∈ Finset.range i,
                deltasQ (mkVariationModel locations axisOrder) v j *
                  scalarMatrix (mkVariationModel locations axisOrder).locations
                    (mkVariationModel locations axisOrder).supports i j) *
                (modelOut (mkVariationModel locations axisOrder) loc).getD i 0 := by
            rw [Finset.sum_mul]
            rw [← Finset.sum_subset (Finset.range_subset.mpr (le_of_lt hiN)) (by
              intro j hjN hjc
              rw [hrow j, if_neg (by simpa using hjc)]
              ring)]
            apply Finset.sum_congr rfl
            intro j hj
            rw [hrow j, if_pos (Finset.mem_range.mp hj)]
            ring
          rw [hsum]
          ring
      _ = ∑ i ∈ Finset.range locations.length,
            masterAt (mkVariationModel locations axisOrder) v i *
              (modelOut (mkVariationModel locations axisOrder) loc).getD i 0 := by
          apply Finset.sum_congr rfl
          intro i _
          have heq : deltasQ (mkVariationModel locations axisOrder) v i +
              ∑ j ∈ Finset.range i,
                deltasQ (mkVariationModel locations axisOrder) v j *
                  scalarMatrix (mkVariationModel locations axisOrder).locations
                    (mkVariationModel locations axisOrder).supports i j =
              masterAt (mkVariationModel locations axisOrder) v i := by
            rw [deltasQ_def, deltaValue_eq]
            ring
          rw [← heq]
  rw [step1]
  refine Finset.sum_nbij' (fun a => revNat (mkVariationModel locations axisOrder) a)
    (fun a => mapNat (mkVariationModel locations axisOrder) a) ?_ ?_ ?_ ?_ ?_
  · intro a ha
    rw [Finset.mem_range] at ha ⊢
    exact ((model_perm_facts locations axisOrder hnz hnd a ha).2).1
  · intro a ha
    rw [Finset.mem_range] at ha ⊢
    exact ((model_perm_facts locations axisOrder hnz hnd a ha).1).1
  · intro a ha
    rw [Finset.mem_range] at ha
    exact ((model_perm_facts locations axisOrder hnz hnd a ha).2).2.2
  · intro a ha
    rw [Finset.mem_range] at ha
    exact ((model_perm_facts locations axisOrder hnz hnd a ha).1).2.2
  · intro a ha
    rw [Finset.mem_range] at ha
    rw [masterAt, ((model_perm_facts locations axisOrder hnz hnd a ha).2).2.2]

theorem masterPath_closed (locations : List Loc) (axisOrder : List Tag)
    (hnz : ∀ l ∈ locations, ∀ kv ∈ l, kv.2 ≠ 0) (hnd : locations.Nodup)
    (loc : Loc) (v : List ℚ) (hv : v.length = locations.length) :
    interpolateFromMasters (mkVariationModel locations axisOrder) loc v =
      if ∀ k, k < locations.length →
          (modelOut (mkVariationModel locations axisOrder) loc).getD
            (mapNat (mkVariationModel locations axisOrder) k) 0 = 0 then none
      else some (some (∑ k ∈ Finset.range locations.length,
        v.getD k 0 *
          (modelOut (mkVariationModel locations axisOrder) loc).getD
            (mapNat (mkVariationModel locations axisOrder) k) 0)) := by
  obtain ⟨holen, _⟩ := model_backSub locations axisOrder loc
  have hmaplen : (mkVariationModel locations axisOrder).mapping.length = locations.length :=
    model_mapping_length locations axisOrder
  have hms : getMasterScalars (mkVariationModel locations axisOrder) loc =
      ((List.range locations.length).map (fun k =>
        (modelOut (mkVariationModel locations axisOrder) loc).getD
          (mapNat (mkVariationModel locations axisOrder) k) 0)).map some := by
    rw [getMasterScalars_eq]
    apply List.ext_get (by simp [hmaplen])
    intro n h1 h2
    have hnN : n < locations.length := by
      rw [List.length_map, hmaplen] at h1
      exact h1
    obtain ⟨⟨hm1, hm2, _⟩, _⟩ := model_perm_facts locations axisOrder hnz hnd n hnN
    rw [List.get_eq_getElem, List.get_eq_getElem, List.getElem_map, List.getElem_map,
      List.getElem_map, List.getElem_range]
    have hidx := hm2
    rw [getD_eq_getElem (mkVariationModel locations axisOrder).mapping 0 (by
      rw [hmaplen]; exact hnN)] at hidx
    rw [hidx, jsIdx, if_pos (Int.natCast_nonneg _), Int.toNat_natCast,
      List.get?_eq_get (by rw [holen]; exact hm1),
      ← getD_eq_get _ 0 (by rw [holen]; exact hm1)]
  rw [interpolateFromMasters, hms, interpolateGo_fromNull]
  have hClen : ((List.range locations.length).map (fun k =>
      (modelOut (mkVariationModel locations axisOrder) loc).getD
        (mapNat (mkVariationModel locations axisOrder) k) 0)).length = locations.length := by
    rw [List.length_map, List.length_range]
  have hcond : (∀ p ∈ v.zip ((List.range locations.length).map (fun k =>
      (modelOut (mkVariationModel locations axisOrder) loc).getD
        (mapNat (mkVariationModel locations axisOrder) k) 0)), p.2 = 0) ↔
      (∀ k, k < locations.length →
        (modelOut (mkVariationModel locations axisOrder) loc).getD
          (mapNat (mkVariationModel locations axisOrder) k) 0 = 0) := by
    rw [all_zip_snd_iff _ _ (by rw [hv, hClen])]
    constructor
    · intro h k hk
      exact h _ (by
        rw [List.mem_map]
        exact ⟨k, by simpa using hk, rfl⟩)
    · intro h x hx
      rw [List.mem_map] at hx
      obtain ⟨k, hk, hkx⟩ := hx
      rw [← hkx]
      exact h k (by simpa using hk)
  rw [if_congr hcond rfl rfl]
  by_cases hc : ∀ k, k < locations.length →
      (modelOut (mkVariationModel locations axisOrder) loc).getD
        (mapNat (mkVariationModel locations axisOrder) k) 0 = 0
  · rw [if_pos hc, if_pos hc]
  · rw [if_neg hc, if_neg hc]
    congr 2
    rw [sum_filter_ne_zero, sum_zip_eq _ _ (by rw [hv, hClen]), hv]
    apply Finset.sum_congr rfl
    intro k hk
    congr 1
    rw [getD_map_eq _ (List.range locations.length) 0 0
      (by simpa using Finset.mem_range.mp hk), getD_range _ _ (Finset.mem_range.mp hk)]

/-- The two interpolation paths agree (shared helper for claims C10 and C1). -/
theorem path_equivalence_spec (locations : List Loc) (axisOrder : List Tag)
    (hnz : ∀ l ∈ locations, ∀ kv ∈ l, kv.2 ≠ 0) (hnd : locations.Nodup)
    (loc : Loc) (v : List ℚ) (hv : v.length = locations.length) :
    interpolateFromMastersAndScalars (mkVariationModel locations axisOrder) v
        (getScalars (mkVariationModel locations axisOrder) loc) =
      interpolateFromMasters (mkVariationModel locations axisOrder) loc v := by
  rw [deltaPath_closed locations axisOrder hnz hnd loc v hv,
    masterPath_closed locations axisOrder hnz hnd loc v hv]
  have hcond : (∀ x ∈ getScalars (mkVariationModel locations axisOrder) loc, x = 0) ↔
      (∀ k, k < locations.length →
        (modelOut (mkVariationModel locations axisOrder) loc).getD
          (mapNat (mkVariationModel locations axisOrder) k) 0 = 0) := by
    rw [← model_out_zero_iff locations axisOrder loc]
    constructor
    · intro h k hk
      exact h _ ((model_perm_facts locations axisOrder hnz hnd k hk).1).1
    · intro h j hj
      have := h (revNat (mkVariationModel locations axisOrder) j)
        ((model_perm_facts locations axisOrder hnz hnd j hj).2).1
      rw [((model_perm_facts locations axisOrder hnz hnd j hj).2).2.2] at this
      exact this
  by_cases hc : ∀ x ∈ getScalars (mkVariationModel locations axisOrder) loc, x = 0
  · rw [if_pos hc, if_pos (hcond.mp hc)]
  · rw [if_neg hc, if_neg (fun h => hc (hcond.mpr h))]
    rw [model_sum_swap locations axisOrder hnz hnd loc v hv]

/-- C10 (amended): for a model built from zero-free, pairwise-distinct
locations, every normalized location `loc`, and every master-value vector of
matching length, the delta path `interpolateFromMastersAndScalars(v,
getScalars(loc))` and the master-scalar path `interpolateFromMasters(loc, v)`
return the same result — the same number, and the `null` sentinel in exactly
the same cases. -/
theorem c10_path_equivalence (locations : List Loc) (axisOrder : List Tag)
    (hnz : ∀ l ∈ locations, ∀ kv ∈ l, kv.2 ≠ 0) (hnd : locations.Nodup)
    (loc : Loc) (v : List ℚ) (hv : v.length = locations.length) :
    interpolateFromMastersAndScalars (mkVariationModel locations axisOrder) v
        (getScalars (mkVariationModel locations axisOrder) loc) =
      interpolateFromMasters (mkVariationModel locations axisOrder) loc v :=
  path_equivalence_spec locations axisOrder hnz hnd loc v hv

/-- Instantiation of the amended C10 at a concrete model and location,
discharging its hypotheses. -/
theorem c10_witness :
    ((∀ l ∈ ([[], [("wght", 1)], [("wdth", 1)]] : List Loc), ∀ kv ∈ l, kv.2 ≠ 0) ∧
      ([[], [("wght", 1)], [("wdth", 1)]] : List Loc).Nodup ∧
      ([5, 10, 20] : List ℚ).length = ([[], [("wght", 1)], [("wdth", 1)]] : List Loc).length) ∧
    interpolateFromMastersAndScalars
        (mkVariationModel [[], [("wght", 1)], [("wdth", 1)]] ["wght"]) [5, 10, 20]
        (getScalars (mkVariationModel [[], [("wght", 1)], [("wdth", 1)]] ["wght"])
          [("wght", 0.5)]) =
      interpolateFromMasters (mkVariationModel [[], [("wght", 1)], [("wdth", 1)]] ["wght"])
        [("wght", 0.5)] [5, 10, 20] :=
  ⟨⟨by with_unfolding_all decide, by with_unfolding_all decide, by with_unfolding_all decide⟩,
    c10_path_equivalence [[], [("wght", 1)], [("wdth", 1)]] ["wght"]
      (by with_unfolding_all decide) (by with_unfolding_all decide) [("wght", 0.5)]
      [5, 10, 20] (by with_unfolding_all decide)⟩

/-! ### Association-list basics for the supports analysis -/

theorem getVal_of_mem {loc : Loc} (hwf : (keysOf loc).Nodup) {kv : Tag × ℚ} (h : kv ∈ loc) :
    getVal loc kv.1 = kv.2 := by
  induction loc with
  | nil => cases h
  | cons e t ih =>
    rcases List.mem_cons.mp h with h' | h'
    · rw [← h', getVal]
      simp
    · have hne : e.1 ≠ kv.1 := by
        intro hcontra
        rw [keysOf, List.map_cons] at hwf
        have : kv.1 ∈ t.map Prod.fst := List.mem_map.mpr ⟨kv, h', rfl⟩
        exact (List.nodup_cons.mp hwf).1 (hcontra ▸ this)
      rw [getVal, List.find?_cons_of_neg _ (by simp [hne])]
      rw [keysOf, List.map_cons] at hwf
      exact ih (List.nodup_cons.mp hwf).2 h'

theorem getVal_eq_zero_of_not_hasKey {loc : Loc} {t : Tag} (h : hasKey loc t = false) :
    getVal loc t = 0 := by
  rw [hasKey] at h
  have hn : List.find? (fun kv => kv.1 == t) loc = none :=
    Option.not_isSome_iff_eq_none.mp (by simp [h])
  rw [getVal, hn]

theorem hasKey_iff_mem_keysOf {α : Type _} {l : List (Tag × α)} {t : Tag} :
    hasKey l t = true ↔ t ∈ keysOf l := by
  induction l with
  | nil => simp [hasKey, keysOf]
  | cons f rest ih =>
    by_cases hf : f.1 = t
    · rw [hasKey, List.find?_cons_of_pos _ (by simp [hf])]
      simp [keysOf, hf]
    · rw [hasKey, List.find?_cons_of_neg _ (by simp [hf]), keysOf, List.map_cons]
      rw [← keysOf, ← hasKey, ih]
      simp only [List.mem_cons]
      constructor
      · exact fun h => Or.inr h
      · rintro (h | h)
        · exact absurd h.symm hf
        · exact h

theorem getTriple_of_mem {R : Support} (hwf : (keysOf R).Nodup) {e : Tag × Triple}
    (h : e ∈ R) : getTriple R e.1 = e.2 := by
  induction R with
  | nil => cases h
  | cons f t ih =>
    rcases List.mem_cons.mp h with h' | h'
    · rw [← h', getTriple]
      simp
    · have hne : f.1 ≠ e.1 := by
        intro hcontra
        rw [keysOf, List.map_cons] at hwf
        have : e.1 ∈ t.map Prod.fst := List.mem_map.mpr ⟨e, h', rfl⟩
        exact (List.nodup_cons.mp hwf).1 (hcontra ▸ this)
      rw [getTriple, List.find?_cons_of_neg _ (by simp [hne])]
      rw [keysOf, List.map_cons] at hwf
      exact ih (List.nodup_cons.mp hwf).2 h'

theorem mem_of_key {R : Support} {t : Tag} (h : t ∈ keysOf R) :
    (t, getTriple R t) ∈ R := by
  induction R with
  | nil => cases h
  | cons f rest ih =>
    by_cases hf : f.1 = t
    · rw [getTriple, List.find?_cons_of_pos _ (by simp [hf])]
      exact List.mem_cons.mpr (Or.inl (by rw [← hf]))
    · rw [keysOf, List.map_cons, List.mem_cons] at h
      rcases h with h | h
      · exact absurd h.symm hf
      · rw [getTriple, List.find?_cons_of_neg _ (by simp [hf])]
        exact List.mem_cons_of_mem f (ih h)

/-! ### The region invariant of `computeMasterSupports` -/

theorem foldl_max_bounds (l : List ℚ) : ∀ a : ℚ, a ≤ l.foldl max a ∧ ∀ x ∈ l, x ≤ l.foldl max a := by
  induction l with
  | nil => intro a; exact ⟨le_refl a, by simp⟩
  | cons b t ih =>
    intro a
    rw [List.foldl_cons]
    refine ⟨le_trans (le_max_left a b) (ih (max a b)).1, ?_⟩
    intro x hx
    rcases List.mem_cons.mp hx with h | h
    · rw [h]
      exact le_trans (le_max_right a b) (ih (max a b)).1
    · exact (ih (max a b)).2 x h

theorem foldl_min_bounds (l : List ℚ) : ∀ a : ℚ, l.foldl min a ≤ a ∧ ∀ x ∈ l, l.foldl min a ≤ x := by
  induction l with
  | nil => intro a; exact ⟨le_refl a, by simp⟩
  | cons b t ih =>
    intro a
    rw [List.foldl_cons]
    refine ⟨le_trans (ih (min a b)).1 (min_le_left a b), ?_⟩
    intro x hx
    rcases List.mem_cons.mp hx with h | h
    · rw [h]
      exact le_trans (ih (min a b)).1 (min_le_right a b)
    · exact (ih (min a b)).2 x h

theorem le_maxVal {locs : List Loc} {t : Tag} {x : ℚ} (hx : x ∈ axisValues locs t) :
    x ≤ maxVal locs t := by
  rw [maxVal]
  rcases h : axisValues locs t with _ | ⟨v, vs⟩
  · rw [h] at hx; cases hx
  · rw [h] at hx
    rcases List.mem_cons.mp hx with h1 | h1
    · exact h1 ▸ (foldl_max_bounds vs v).1
    · exact (foldl_max_bounds vs v).2 x h1

theorem minVal_le {locs : List Loc} {t : Tag} {x : ℚ} (hx : x ∈ axisValues locs t) :
    minVal locs t ≤ x := by
  rw [minVal]
  rcases h : axisValues locs t with _ | ⟨v, vs⟩
  · rw [h] at hx; cases hx
  · rw [h] at hx
    rcases List.mem_cons.mp hx with h1 | h1
    · exact h1 ▸ (foldl_min_bounds vs v).1
    · exact (foldl_min_bounds vs v).2 x h1

theorem getVal_mem_axisValues {locs : List Loc} {l : Loc} {t : Tag} (hl : l ∈ locs)
    (ht : hasKey l t = true) : getVal l t ∈ axisValues locs t := by
  rw [axisValues, List.mem_filterMap]
  exact ⟨l, hl, by rw [if_pos ht]⟩

/-- The invariant maintained for every entry of every (partially refined)
region of master location `loc`: the peak is the location's own axis value and
is nonzero, the triple is ordered, and it does not straddle 0. -/
def RegEntryInv (loc : Loc) (e : Tag × Triple) : Prop :=
  e.2.2.1 = getVal loc e.1 ∧ e.2.2.1 ≠ 0 ∧ e.2.1 ≤ e.2.2.1 ∧ e.2.2.1 ≤ e.2.2.2 ∧
    (0 < e.2.2.1 → 0 ≤ e.2.1) ∧ (e.2.2.1 < 0 → e.2.2.2 ≤ 0)

/-- A region entry satisfying the structural half of `RegEntryInv` whose peak
differs from the location's value and whose interval excludes it forces the
support scalar to 0 at that location. -/
theorem zeroAxisB_of {lk : Loc} {e : Tag × Triple}
    (h0 : e.2.2.1 ≠ 0) (hlo : e.2.1 ≤ e.2.2.1) (hup : e.2.2.1 ≤ e.2.2.2)
    (hs1 : 0 < e.2.2.1 → 0 ≤ e.2.1) (hs2 : e.2.2.1 < 0 → e.2.2.2 ≤ 0)
    (hne : getVal lk e.1 ≠ e.2.2.1)
    (hbd : getVal lk e.1 ≤ e.2.1 ∨ e.2.2.2 ≤ getVal lk e.1) :
    zeroAxisB lk e = true := by
  rw [zeroAxisB, Bool.and_eq_true, Bool.not_eq_true', skippedB]
  constructor
  · rw [decide_eq_false_iff_not]
    push_neg
    refine ⟨h0, hlo, hup, ?_, hne⟩
    intro hl0
    rcases lt_trichotomy e.2.2.1 0 with hpk | hpk | hpk
    · exact hs2 hpk
    · exact absurd hpk h0
    · exact absurd hl0 (not_lt.mpr (hs1 hpk))
  · exact decide_eq_true hbd

theorem supportScalar_eq_one_of_peaks (loc : Loc) :
    ∀ S : Support, (∀ e ∈ S, e.2.2.1 = getVal loc e.1) → supportScalar loc S = 1 := by
  intro S
  induction S with
  | nil => intro _; rfl
  | cons e rest ih =>
    intro h
    obtain ⟨tag, t⟩ := e
    rw [supportScalar, supportScalarGo_cons_skipped (by
      rw [skippedB, decide_eq_true_eq]
      refine Or.inr (Or.inr (Or.inr (Or.inr ?_)))
      exact (h (tag, t) (List.mem_cons_self _ _)).symm), ← supportScalar]
    exact ih (fun e he => h e (List.mem_cons_of_mem _ he))

theorem supportScalar_eq_zero_of_zeroAxis {lk : Loc} {S : Support}
    (h : ∃ e ∈ S, zeroAxisB lk e = true) : supportScalar lk S = 0 := by
  rw [supportScalar_eq_desc, supportScalarDesc, if_pos (List.any_eq_true.mpr h)]

theorem initial_region_inv (locs : List Loc) (loc : Loc) (hmem : loc ∈ locs)
    (hnd : (keysOf loc).Nodup) (hnz : ∀ kv ∈ loc, kv.2 ≠ 0) :
    keysOf (loc.map (fun kv => (kv.1, if kv.2 > 0 then ((0 : ℚ), kv.2, maxVal locs kv.1)
        else (minVal locs kv.1, kv.2, (0 : ℚ))))) = keysOf loc ∧
    ∀ e ∈ loc.map (fun kv => (kv.1, if kv.2 > 0 then ((0 : ℚ), kv.2, maxVal locs kv.1)
        else (minVal locs kv.1, kv.2, (0 : ℚ)))), RegEntryInv loc e := by
  constructor
  · rw [keysOf, keysOf, List.map_map]
    rfl
  · intro e he
    obtain ⟨kv, hkv, hfe⟩ := List.mem_map.mp he
    have hval : getVal loc kv.1 = kv.2 := getVal_of_mem hnd hkv
    have hkey : hasKey loc kv.1 = true :=
      hasKey_iff_mem_keysOf.mpr (List.mem_map.mpr ⟨kv, hkv, rfl⟩)
    have hax : kv.2 ∈ axisValues locs kv.1 := hval ▸ getVal_mem_axisValues hmem hkey
    have hnzv : kv.2 ≠ 0 := hnz kv hkv
    subst hfe
    by_cases hpos : kv.2 > 0
    · rw [RegEntryInv]
      simp only [hpos, if_true]
      exact ⟨hval.symm, hnzv, le_of_lt hpos, le_maxVal hax,
        fun _ => le_refl 0, fun h => absurd hpos (not_lt.mpr (le_of_lt h))⟩
    · rw [RegEntryInv]
      simp only [hpos, if_false]
      have hneg : kv.2 < 0 := lt_of_le_of_ne (not_lt.mp hpos) hnzv
      exact ⟨hval.symm, hnzv, minVal_le hax, le_of_lt hneg,
        fun h => h.elim, fun _ => le_refl 0⟩

/-! ### `setTriple` and `applyBest` plumbing -/

theorem find?_append_of_none {α : Type _} (p : α → Bool) :
    ∀ (l₁ l₂ : List α), l₁.find? p = none → (l₁ ++ l₂).find? p = l₂.find? p := by
  intro l₁
  induction l₁ with
  | nil => intro l₂ _; rfl
  | cons a t ih =>
    intro l₂ h
    by_cases hp : p a = true
    · rw [List.find?_cons_of_pos _ hp] at h; cases h
    · rw [List.find?_cons_of_neg _ (by simpa using hp)] at h
      rw [List.cons_append, List.find?_cons_of_neg _ (by simpa using hp)]
      exact ih l₂ h

theorem find?_append_of_some {α : Type _} (p : α → Bool) {x : α} :
    ∀ (l₁ l₂ : List α), l₁.find? p = some x → (l₁ ++ l₂).find? p = some x := by
  intro l₁
  induction l₁ with
  | nil => intro l₂ h; cases h
  | cons a t ih =>
    intro l₂ h
    by_cases hp : p a = true
    · rw [List.find?_cons_of_pos _ hp] at h
      rw [List.cons_append, List.find?_cons_of_pos _ hp]
      exact h
    · rw [List.find?_cons_of_neg _ (by simpa using hp)] at h
      rw [List.cons_append, List.find?_cons_of_neg _ (by simpa using hp)]
      exact ih l₂ h

theorem find?_set_map_self {a : Tag} (tr : Triple) :
    ∀ r : Support, hasKey r a = true →
      (r.map (fun kv => if kv.1 == a then (a, tr) else kv)).find? (fun kv => kv.1 == a) =
        some (a, tr) := by
  intro r
  induction r with
  | nil => intro h; cases h
  | cons kv t ih =>
    intro h
    by_cases hk : kv.1 = a
    · rw [List.map_cons, if_pos (by simp [hk])]
      rw [List.find?_cons_of_pos _ (by simp)]
    · rw [List.map_cons, if_neg (by simp [hk])]
      rw [List.find?_cons_of_neg _ (by simp [hk])]
      rw [hasKey, List.find?_cons_of_neg _ (by simp [hk])] at h
      exact ih h

theorem find?_set_map_ne {a t' : Tag} (h : t' ≠ a) (tr : Triple) :
    ∀ r : Support,
      (r.map (fun kv => if kv.1 == a then (a, tr) else kv)).find? (fun kv => kv.1 == t') =
        r.find? (fun kv => kv.1 == t') := by
  intro r
  induction r with
  | nil => rfl
  | cons kv t ih =>
    by_cases hk : kv.1 = a
    · rw [List.map_cons, if_pos (by simp [hk])]
      rw [List.find?_cons_of_neg _ (by simp [Ne.symm h]), List.find?_cons_of_neg _ (by
        rw [hk]; simp [Ne.symm h])]
      exact ih
    · rw [List.map_cons, if_neg (by simp [hk])]
      by_cases ht : kv.1 = t'
      · rw [List.find?_cons_of_pos _ (by simp [ht]), List.find?_cons_of_pos _ (by simp [ht])]
      · rw [List.find?_cons_of_neg _ (by simp [ht]), List.find?_cons_of_neg _ (by simp [ht])]
        exact ih

theorem getTriple_setTriple_self (r : Support) (a : Tag) (tr : Triple) :
    getTriple (setTriple r a tr) a = tr := by
  rw [setTriple]
  by_cases h : hasKey r a = true
  · rw [if_pos h, getTriple, find?_set_map_self tr r h]
  · rw [if_neg h, getTriple, find?_append_of_none _ r [(a, tr)] (by
      rw [hasKey] at h
      exact Option.not_isSome_iff_eq_none.mp (by simp [h]))]
    rw [List.find?_cons_of_pos _ (by simp)]

theorem getTriple_setTriple_ne {a t' : Tag} (h : t' ≠ a) (r : Support) (tr : Triple) :
    getTriple (setTriple r a tr) t' = getTriple r t' := by
  rw [setTriple]
  by_cases hk : hasKey r a = true
  · rw [if_pos hk, getTriple, find?_set_map_ne h tr r, getTriple]
  · rw [if_neg hk, getTriple, getTriple]
    rcases hf : r.find? (fun kv => kv.1 == t') with _ | x
    · rw [find?_append_of_none _ r [(a, tr)] hf, List.find?_cons_of_neg _ (by simp [Ne.symm h]),
        hf]
      rfl
    · rw [find?_append_of_some _ r [(a, tr)] hf, hf]

theorem keysOf_setTriple {r : Support} {a : Tag} (h : hasKey r a = true) (tr : Triple) :
    keysOf (setTriple r a tr) = keysOf r := by
  rw [setTriple, if_pos h, keysOf, keysOf, List.map_map]
  apply List.map_congr_left
  intro kv _
  by_cases hk : kv.1 = a
  · simp [hk]
  · simp [hk]

theorem hasKey_of_keysOf_eq {r r' : Support} (h : keysOf r' = keysOf r) {a : Tag}
    (ha : hasKey r a = true) : hasKey r' a = true :=
  hasKey_iff_mem_keysOf.mpr (h ▸ hasKey_iff_mem_keysOf.mp ha)

theorem applyBest_getTriple_of_not_mem :
    ∀ (best r : Support) (t : Tag), t ∉ keysOf best →
      getTriple (applyBest r best) t = getTriple r t := by
  intro best
  induction best with
  | nil => intro r t _; rfl
  | cons b rest ih =>
    intro r t ht
    rw [keysOf, List.map_cons, List.mem_cons] at ht
    push_neg at ht
    rw [applyBest, List.foldl_cons, ← applyBest, ih _ t (by rw [keysOf]; exact ht.2),
      getTriple_setTriple_ne ht.1]

theorem applyBest_getTriple_of_mem :
    ∀ (best r : Support), (keysOf best).Nodup →
      ∀ e ∈ best, getTriple (applyBest r best) e.1 = e.2 := by
  intro best
  induction best with
  | nil => intro r _ e he; cases he
  | cons b rest ih =>
    intro r hnd e he
    rw [keysOf, List.map_cons, List.nodup_cons] at hnd
    rw [applyBest, List.foldl_cons, ← applyBest]
    rcases List.mem_cons.mp he with h | h
    · subst h
      rw [applyBest_getTriple_of_not_mem rest _ e.1 (by rw [keysOf]; exact hnd.1),
        getTriple_setTriple_self]
    · exact ih _ hnd.2 e h

theorem keysOf_applyBest :
    ∀ (best r : Support), (∀ e ∈ best, hasKey r e.1 = true) →
      keysOf (applyBest r best) = keysOf r := by
  intro best
  induction best with
  | nil => intro r _; rfl
  | cons b rest ih =>
    intro r h
    rw [applyBest, List.foldl_cons, ← applyBest]
    have hb : hasKey r b.1 = true := h b (List.mem_cons_self _ _)
    have hset : keysOf (setTriple r b.1 b.2) = keysOf r := keysOf_setTriple hb b.2
    rw [ih _ (fun e he => hasKey_of_keysOf_eq hset (h e (List.mem_cons_of_mem b he))), hset]

/-! ### The candidates produced by `bestSplitFold` -/

theorem updateBest_mem {acc : ℚ × Support} {a : Tag} {tr : Triple} {r : ℚ}
    {e : Tag × Triple} (he : e ∈ (updateBest acc a tr r).2) : e ∈ acc.2 ∨ e = (a, tr) := by
  rw [updateBest] at he
  split_ifs at he
  · right
    simpa using he
  · rcases List.mem_append.mp he with h | h
    · left; exact h
    · right; simpa using h
  · left; exact he

theorem bestSplitFold_mem {R : Support} {acc : ℚ × Support} {kv : Tag × Triple}
    {e : Tag × Triple} (he : e ∈ (bestSplitFold R acc kv).2) :
    e ∈ acc.2 ∨
    (kv.2.2.1 < (getTriple R kv.1).2.1 ∧
      e = (kv.1, (kv.2.2.1, (getTriple R kv.1).2.1, (getTriple R kv.1).2.2))) ∨
    ((getTriple R kv.1).2.1 < kv.2.2.1 ∧
      e = (kv.1, ((getTriple R kv.1).1, (getTriple R kv.1).2.1, kv.2.2.1))) := by
  simp only [bestSplitFold] at he
  split_ifs at he with h1 h2
  · rcases updateBest_mem he with h | h
    · left; exact h
    · right; left; exact ⟨h1, h⟩
  · rcases updateBest_mem he with h | h
    · left; exact h
    · right; right; exact ⟨h2, h⟩
  · left; exact he

theorem bestFold_mem (R : Support) :
    ∀ (P : List (Tag × Triple)) (acc : ℚ × Support) (e : Tag × Triple),
      e ∈ (P.foldl (bestSplitFold R) acc).2 →
      e ∈ acc.2 ∨ ∃ kv ∈ P,
        (kv.2.2.1 < (getTriple R kv.1).2.1 ∧
          e = (kv.1, (kv.2.2.1, (getTriple R kv.1).2.1, (getTriple R kv.1).2.2))) ∨
        ((getTriple R kv.1).2.1 < kv.2.2.1 ∧
          e = (kv.1, ((getTriple R kv.1).1, (getTriple R kv.1).2.1, kv.2.2.1))) := by
  intro P
  induction P with
  | nil => intro acc e he; left; exact he
  | cons kv rest ih =>
    intro acc e he
    rw [List.foldl_cons] at he
    rcases ih _ e he with h | ⟨kv', hkv', hc⟩
    · rcases bestSplitFold_mem h with h' | h' | h'
      · left; exact h'
      · right; exact ⟨kv, List.mem_cons_self _ _, Or.inl h'⟩
      · right; exact ⟨kv, List.mem_cons_self _ _, Or.inr h'⟩
    · right; exact ⟨kv', List.mem_cons_of_mem _ hkv', hc⟩

/-- What `bestAxes` collects: the axis is present in the region, the triple
keeps the region's peak, shrinks its interval, and satisfies the region
invariant. -/
def CandProp (loc : Loc) (R : Support) (e : Tag × Triple) : Prop :=
  hasKey R e.1 = true ∧ e.2.2.1 = (getTriple R e.1).2.1 ∧
    (getTriple R e.1).1 ≤ e.2.1 ∧ e.2.2.2 ≤ (getTriple R e.1).2.2 ∧ RegEntryInv loc e

theorem bestFold_cand (loc : Loc) (R : Support)
    (hRinv : ∀ e ∈ R, RegEntryInv loc e) (P : List (Tag × Triple))
    (hP : ∀ kv ∈ P, hasKey R kv.1 = true ∧
      (kv.2.2.1 = (getTriple R kv.1).2.1 ∨
        ((getTriple R kv.1).1 < kv.2.2.1 ∧ kv.2.2.1 < (getTriple R kv.1).2.2))) :
    ∀ e ∈ (P.foldl (bestSplitFold R) (-1, [])).2, CandProp loc R e := by
  intro e he
  rcases bestFold_mem R P (-1, []) e he with h | ⟨kv, hkv, hcase⟩
  · cases h
  · obtain ⟨hkey, hP2⟩ := hP kv hkv
    have hRentry : RegEntryInv loc (kv.1, getTriple R kv.1) :=
      hRinv _ (mem_of_key (hasKey_iff_mem_keysOf.mp hkey))
    rw [RegEntryInv] at hRentry
    obtain ⟨hpk, hnz, hlo, hup, hs1, hs2⟩ := hRentry
    rcases hcase with ⟨hlt, he'⟩ | ⟨hgt, he'⟩
    · have hval : (getTriple R kv.1).1 < kv.2.2.1 := by
        rcases hP2 with h | h
        · exact absurd h (ne_of_lt hlt)
        · exact h.1
      subst he'
      refine ⟨hkey, rfl, le_of_lt hval, le_refl _, ?_⟩
      rw [RegEntryInv]
      exact ⟨hpk, hnz, le_of_lt hlt, hup, fun hp => le_trans (hs1 hp) (le_of_lt hval), hs2⟩
    · have hval : kv.2.2.1 < (getTriple R kv.1).2.2 := by
        rcases hP2 with h | h
        · exact absurd h.symm (ne_of_lt hgt)
        · exact h.2
      subst he'
      refine ⟨hkey, rfl, le_refl _, le_of_lt hval, ?_⟩
      rw [RegEntryInv]
      exact ⟨hpk, hnz, hlo, le_of_lt hgt, hs1, fun hn => le_trans (le_of_lt hval) (hs2 hn)⟩

theorem bestFold_zero_prop (lk : Loc) (R : Support) (P : List (Tag × Triple))
    (hP : ∀ kv ∈ P, kv.2.2.1 = getVal lk kv.1) :
    ∀ e ∈ (P.foldl (bestSplitFold R) (-1, [])).2,
      (getVal lk e.1 ≤ e.2.1 ∨ e.2.2.2 ≤ getVal lk e.1) ∧ getVal lk e.1 ≠ e.2.2.1 := by
  intro e he
  rcases bestFold_mem R P (-1, []) e he with h | ⟨kv, hkv, hcase⟩
  · cases h
  · have hval := hP kv hkv
    rcases hcase with ⟨hlt, he'⟩ | ⟨hgt, he'⟩
    · subst he'
      exact ⟨Or.inl (le_of_eq hval.symm), by rw [← hval]; exact ne_of_lt hlt⟩
    · subst he'
      exact ⟨Or.inr (le_of_eq hval), by rw [← hval]; exact ne_of_gt hgt⟩

theorem bestSplitFold_shape (R : Support) (acc : ℚ × Support) (kv : Tag × Triple) :
    bestSplitFold R acc kv = acc ∨
    (∃ r tr, acc.1 < r ∧ bestSplitFold R acc kv = (r, [(kv.1, tr)])) ∨
    (∃ tr, bestSplitFold R acc kv = (acc.1, acc.2 ++ [(kv.1, tr)])) := by
  simp only [bestSplitFold, updateBest]
  split_ifs with h1 h2 h3 h4 h5 h6
  · exact Or.inr (Or.inl ⟨_, _, h2, rfl⟩)
  · exact Or.inr (Or.inr ⟨_, rfl⟩)
  · exact Or.inl rfl
  · exact Or.inr (Or.inl ⟨_, _, h5, rfl⟩)
  · exact Or.inr (Or.inr ⟨_, rfl⟩)
  · exact Or.inl rfl
  · exact Or.inl rfl

theorem bestFold_keys_nodup (R : Support) :
    ∀ (P : List (Tag × Triple)), (keysOf P).Nodup →
      ∀ acc : ℚ × Support, (keysOf acc.2).Nodup → (∀ a ∈ keysOf acc.2, a ∉ keysOf P) →
      (keysOf (P.foldl (bestSplitFold R) acc).2).Nodup := by
  intro P
  induction P with
  | nil => intro _ acc h _; exact h
  | cons kv rest ih =>
    intro hnd acc hacc havoid
    rw [keysOf, List.map_cons, List.nodup_cons] at hnd
    rw [List.foldl_cons]
    have havoid' : ∀ a ∈ keysOf acc.2, a ≠ kv.1 ∧ a ∉ keysOf rest := by
      intro a ha
      have h := havoid a ha
      rw [keysOf, List.map_cons, List.mem_cons] at h
      push_neg at h
      exact ⟨h.1, h.2⟩
    rcases bestSplitFold_shape R acc kv with h | ⟨r, tr, _, h⟩ | ⟨tr, h⟩
    · rw [h]
      refine ih hnd.2 acc hacc ?_
      intro a ha
      exact (havoid' a ha).2
    · rw [h]
      refine ih hnd.2 _ (by simp [keysOf]) ?_
      intro a ha
      have ha' : a = kv.1 := by simpa [keysOf] using ha
      rw [ha']
      exact hnd.1
    · rw [h]
      refine ih hnd.2 _ ?_ ?_
      · show (keysOf (acc.2 ++ [(kv.1, tr)])).Nodup
        rw [keysOf, List.map_append]
        rw [List.nodup_append]
        refine ⟨hacc, List.nodup_singleton _, ?_⟩
        intro a ha hb
        have ha1 : a = kv.1 := by simpa using hb
        exact (havoid' a ha).1 ha1
      · intro a ha
        show a ∉ keysOf rest
        rw [keysOf, List.map_append, List.mem_append] at ha
        rcases ha with ha | ha
        · exact (havoid' a ha).2
        · have ha1 : a = kv.1 := by simpa using ha
          rw [ha1]
          exact hnd.1

theorem bestFold_pres (R : Support) :
    ∀ (P : List (Tag × Triple)) (acc : ℚ × Support),
      acc.1 ≤ (P.foldl (bestSplitFold R) acc).1 ∧
      (acc.2 ≠ [] → (P.foldl (bestSplitFold R) acc).2 ≠ []) := by
  intro P
  induction P with
  | nil => intro acc; exact ⟨le_refl _, fun h => h⟩
  | cons kv rest ih =>
    intro acc
    rw [List.foldl_cons]
    rcases bestSplitFold_shape R acc kv with h | ⟨r, tr, hr, h⟩ | ⟨tr, h⟩
    · rw [h]; exact ih acc
    · rw [h]
      exact ⟨le_trans (le_of_lt hr) (ih _).1, fun _ => (ih _).2 (by simp)⟩
    · rw [h]
      exact ⟨(ih _).1, fun _ => (ih _).2 (by simp)⟩

theorem bestSplitFold_inv (R : Support) (acc : ℚ × Support) (kv : Tag × Triple)
    (h : (-1 : ℚ) < acc.1 → acc.2 ≠ []) :
    (-1 : ℚ) < (bestSplitFold R acc kv).1 → (bestSplitFold R acc kv).2 ≠ [] := by
  rcases bestSplitFold_shape R acc kv with h' | ⟨r, tr, _, h'⟩ | ⟨tr, h'⟩
  · rw [h']; exact h
  · rw [h']; intro _; simp
  · rw [h']; intro hlt; exact fun hc => by simp at hc

theorem bestSplitFold_trigger_step (R : Support) (acc : ℚ × Support) (kv : Tag × Triple)
    (hinv : (-1 : ℚ) < acc.1 → acc.2 ≠ [])
    (hne : kv.2.2.1 ≠ (getTriple R kv.1).2.1)
    (hlo : (getTriple R kv.1).1 < kv.2.2.1) (hup : kv.2.2.1 < (getTriple R kv.1).2.2) :
    (bestSplitFold R acc kv).2 ≠ [] := by
  simp only [bestSplitFold, updateBest]
  split_ifs with h1 h2 h3 h4 h5 h6
  · simp
  · simp
  · refine hinv ?_
    have hrpos : (0 : ℚ) < (kv.2.2.1 - (getTriple R kv.1).2.1) /
        ((getTriple R kv.1).1 - (getTriple R kv.1).2.1) :=
      div_pos_of_neg_of_neg (by linarith) (by linarith)
    linarith [not_lt.mp h2]
  · simp
  · simp
  · refine hinv ?_
    have hrpos : (0 : ℚ) < (kv.2.2.1 - (getTriple R kv.1).2.1) /
        ((getTriple R kv.1).2.2 - (getTriple R kv.1).2.1) :=
      div_pos (by linarith) (by linarith)
    linarith [not_lt.mp h5]
  · exact absurd (le_antisymm (not_lt.mp h4) (not_lt.mp h1)) hne

theorem bestFold_trigger (R : Support) :
    ∀ (P : List (Tag × Triple)) (acc : ℚ × Support),
      ((-1 : ℚ) < acc.1 → acc.2 ≠ []) →
      (∃ kv ∈ P, kv.2.2.1 ≠ (getTriple R kv.1).2.1 ∧
        (getTriple R kv.1).1 < kv.2.2.1 ∧ kv.2.2.1 < (getTriple R kv.1).2.2) →
      (P.foldl (bestSplitFold R) acc).2 ≠ [] := by
  intro P
  induction P with
  | nil =>
    intro acc _ hw
    obtain ⟨kv, hkv, _⟩ := hw
    cases hkv
  | cons kv rest ih =>
    intro acc hinv hw
    rw [List.foldl_cons]
    obtain ⟨kv', hkv', hc1, hc2, hc3⟩ := hw
    rcases List.mem_cons.mp hkv' with h | h
    · subst h
      exact (bestFold_pres R rest _).2 (bestSplitFold_trigger_step R acc kv' hinv hc1 hc2 hc3)
    · exact ih _ (bestSplitFold_inv R acc kv hinv) ⟨kv', h, hc1, hc2, hc3⟩

/-! ### One refinement step preserves the region invariant -/

theorem stepRegion_eq_self_of_not_sup {R P : Support} (h : supersetB R P = false) :
    stepRegion R P = R := by
  simp [stepRegion, h]

theorem stepRegion_eq_self_of_not_rel {R P : Support} (h : relevantB R P = false) :
    stepRegion R P = R := by
  simp [stepRegion, h]

theorem stepRegion_eq_applyBest {R P : Support} (h1 : supersetB R P = true)
    (h2 : relevantB R P = true) :
    stepRegion R P = applyBest R (P.foldl (bestSplitFold R) (-1, [])).2 := by
  simp [stepRegion, h1, h2]

/-- The entries of `prev` as seen through the `relevant` guard: each axis of
`prev` is in the region, and its peak equals the region's peak or lies
strictly inside the region's interval. -/
theorem relevant_entries (R P : Support) (hPnd : (keysOf P).Nodup)
    (hsup : supersetB R P = true) (hrel : relevantB R P = true) :
    ∀ kv ∈ P, hasKey R kv.1 = true ∧
      (kv.2.2.1 = (getTriple R kv.1).2.1 ∨
        ((getTriple R kv.1).1 < kv.2.2.1 ∧ kv.2.2.1 < (getTriple R kv.1).2.2)) := by
  intro kv hkv
  have hkey : hasKey R kv.1 = true := by
    rw [supersetB, List.all_eq_true] at hsup
    exact hsup kv hkv
  refine ⟨hkey, ?_⟩
  have hmem : (kv.1, getTriple R kv.1) ∈ R := mem_of_key (hasKey_iff_mem_keysOf.mp hkey)
  rw [relevantB, List.all_eq_true] at hrel
  have h := hrel _ hmem
  rw [Bool.and_eq_true, decide_eq_true_eq] at h
  have hPkv : getTriple P kv.1 = kv.2 := getTriple_of_mem hPnd hkv
  rw [hPkv] at h
  exact h.2

theorem stepRegion_props (loc : Loc) (R P : Support) (hRnd : (keysOf R).Nodup)
    (hPnd : (keysOf P).Nodup) (hRinv : ∀ e ∈ R, RegEntryInv loc e) :
    keysOf (stepRegion R P) = keysOf R ∧
    (∀ e ∈ stepRegion R P, RegEntryInv loc e) ∧
    ∀ t ∈ keysOf R, (getTriple (stepRegion R P) t).2.1 = (getTriple R t).2.1 ∧
      (getTriple R t).1 ≤ (getTriple (stepRegion R P) t).1 ∧
      (getTriple (stepRegion R P) t).2.2 ≤ (getTriple R t).2.2 := by
  by_cases hsup : supersetB R P = true
  · by_cases hrel : relevantB R P = true
    · rw [stepRegion_eq_applyBest hsup hrel]
      have hP := relevant_entries R P hPnd hsup hrel
      have hcand := bestFold_cand loc R hRinv P hP
      have hbnd : (keysOf (P.foldl (bestSplitFold R) (-1, [])).2).Nodup :=
        bestFold_keys_nodup R P hPnd (-1, []) (by simp [keysOf]) (by simp [keysOf])
      have hkeys : keysOf (applyBest R (P.foldl (bestSplitFold R) (-1, [])).2) = keysOf R :=
        keysOf_applyBest _ R (fun e he => (hcand e he).1)
      refine ⟨hkeys, ?_, ?_⟩
      · intro e' he'
        have hres_nd : (keysOf (applyBest R (P.foldl (bestSplitFold R) (-1, [])).2)).Nodup :=
          hkeys ▸ hRnd
        have he'e := getTriple_of_mem hres_nd he'
        by_cases hb : e'.1 ∈ keysOf (P.foldl (bestSplitFold R) (-1, [])).2
        · have hcb := mem_of_key hb
          have heq := applyBest_getTriple_of_mem _ R hbnd _ hcb
          have he2 : e'.2 = getTriple (P.foldl (bestSplitFold R) (-1, [])).2 e'.1 := by
            rw [← he'e, heq]
          have hreg := (hcand _ hcb).2.2.2.2
          have hee : e' = (e'.1, getTriple (P.foldl (bestSplitFold R) (-1, [])).2 e'.1) :=
            Prod.ext rfl he2
          rw [hee]
          exact hreg
        · have heq := applyBest_getTriple_of_not_mem _ R e'.1 hb
          have hkR : e'.1 ∈ keysOf R := by
            rw [← hkeys]
            exact List.mem_map.mpr ⟨e', he', rfl⟩
          have hcb := mem_of_key hkR
          have he2 : e'.2 = getTriple R e'.1 := by rw [← he'e, heq]
          have hee : e' = (e'.1, getTriple R e'.1) := Prod.ext rfl he2
          rw [hee]
          exact hRinv _ hcb
      · intro t htR
        by_cases hb : t ∈ keysOf (P.foldl (bestSplitFold R) (-1, [])).2
        · have hcb := mem_of_key hb
          have heq := applyBest_getTriple_of_mem _ R hbnd _ hcb
          have hc := hcand _ hcb
          rw [heq]
          exact ⟨hc.2.1, hc.2.2.1, hc.2.2.2.1⟩
        · rw [applyBest_getTriple_of_not_mem _ R t hb]
          exact ⟨rfl, le_refl _, le_refl _⟩
    · rw [stepRegion_eq_self_of_not_rel (Bool.eq_false_iff.mpr hrel)]
      exact ⟨rfl, hRinv, fun t _ => ⟨rfl, le_refl _, le_refl _⟩⟩
  · rw [stepRegion_eq_self_of_not_sup (Bool.eq_false_iff.mpr hsup)]
    exact ⟨rfl, hRinv, fun t _ => ⟨rfl, le_refl _, le_refl _⟩⟩

/-- Once a region carries an axis that zeroes the support at `lk`, further
refinement steps keep such an axis: refinement shrinks intervals. -/
theorem stepRegion_zeroAt (lk loc : Loc) (R P : Support) (hRnd : (keysOf R).Nodup)
    (hPnd : (keysOf P).Nodup) (hRinv : ∀ e ∈ R, RegEntryInv loc e)
    (hz : ∃ e ∈ R, zeroAxisB lk e = true) :
    ∃ e ∈ stepRegion R P, zeroAxisB lk e = true := by
  obtain ⟨e, heR, hez⟩ := hz
  obtain ⟨hkeq, hinv', hshrink⟩ := stepRegion_props loc R P hRnd hPnd hRinv
  have ht : e.1 ∈ keysOf R := List.mem_map.mpr ⟨e, heR, rfl⟩
  have htetr : getTriple R e.1 = e.2 := getTriple_of_mem hRnd heR
  have ht' : e.1 ∈ keysOf (stepRegion R P) := hkeq ▸ ht
  have hmem' := mem_of_key ht'
  obtain ⟨hpk, hlo, hup⟩ := hshrink e.1 ht
  have hreg := hinv' _ hmem'
  rw [RegEntryInv] at hreg
  obtain ⟨_, hn0, hlo', hup', hs1, hs2⟩ := hreg
  rw [zeroAxisB, Bool.and_eq_true, Bool.not_eq_true', skippedB, decide_eq_false_iff_not,
    decide_eq_true_eq] at hez
  obtain ⟨hsk, hbd⟩ := hez
  push_neg at hsk
  obtain ⟨_, _, _, _, hne⟩ := hsk
  refine ⟨_, hmem', zeroAxisB_of hn0 hlo' hup' hs1 hs2 ?_ ?_⟩
  · show getVal lk e.1 ≠ (getTriple (stepRegion R P) e.1).2.1
    rw [hpk, htetr]
    exact hne
  · show getVal lk e.1 ≤ (getTriple (stepRegion R P) e.1).1 ∨
      (getTriple (stepRegion R P) e.1).2.2 ≤ getVal lk e.1
    rcases hbd with h | h
    · left
      calc getVal lk e.1 ≤ e.2.1 := h
        _ = (getTriple R e.1).1 := by rw [htetr]
        _ ≤ (getTriple (stepRegion R P) e.1).1 := hlo
    · right
      calc (getTriple (stepRegion R P) e.1).2.2 ≤ (getTriple R e.1).2.2 := hup
        _ = e.2.2.2 := by rw [htetr]
        _ ≤ getVal lk e.1 := h

/-- Refining the region of master `lj` against the fully refined support of an
earlier master `lk` with the same axis set and a genuinely different location
plants an axis that zeroes the support at `lk`. -/
theorem stepRegion_establishZero (lk lj : Loc) (R P : Support)
    (hRnd : (keysOf R).Nodup) (hPnd : (keysOf P).Nodup)
    (hRinv : ∀ e ∈ R, RegEntryInv lj e) (hPinv : ∀ e ∈ P, RegEntryInv lk e)
    (hsets : ∀ t, t ∈ keysOf P ↔ t ∈ keysOf R)
    (hdiff : ∃ t ∈ keysOf R, getVal lk t ≠ getVal lj t) :
    ∃ e ∈ stepRegion R P, zeroAxisB lk e = true := by
  obtain ⟨t0, ht0R, ht0ne⟩ := hdiff
  have hsup : supersetB R P = true := by
    rw [supersetB, List.all_eq_true]
    intro kv hkv
    exact hasKey_iff_mem_keysOf.mpr ((hsets kv.1).mp (List.mem_map.mpr ⟨kv, hkv, rfl⟩))
  by_cases hrel : relevantB R P = true
  · rw [stepRegion_eq_applyBest hsup hrel]
    have hP := relevant_entries R P hPnd hsup hrel
    have hPpeaks : ∀ kv ∈ P, kv.2.2.1 = getVal lk kv.1 := by
      intro kv hkv
      have h := hPinv kv hkv
      rw [RegEntryInv] at h
      exact h.1
    have hcand := bestFold_cand lj R hRinv P hP
    have hzp := bestFold_zero_prop lk R P hPpeaks
    have hbnd : (keysOf (P.foldl (bestSplitFold R) (-1, [])).2).Nodup :=
      bestFold_keys_nodup R P hPnd (-1, []) (by simp [keysOf]) (by simp [keysOf])
    have hne_nil : (P.foldl (bestSplitFold R) (-1, [])).2 ≠ [] := by
      apply bestFold_trigger R P (-1, []) (by intro h; exact absurd h (by norm_num))
      have ht0P : t0 ∈ keysOf P := (hsets t0).mpr ht0R
      refine ⟨(t0, getTriple P t0), mem_of_key ht0P, ?_, ?_, ?_⟩
      · show (getTriple P t0).2.1 ≠ (getTriple R t0).2.1
        have hPt := hPinv _ (mem_of_key ht0P)
        rw [RegEntryInv] at hPt
        have hRt := hRinv _ (mem_of_key ht0R)
        rw [RegEntryInv] at hRt
        rw [hPt.1, hRt.1]
        exact ht0ne
      · show (getTriple R t0).1 < (getTriple P t0).2.1
        rcases (hP _ (mem_of_key ht0P)).2 with h | h
        · exfalso
          have hPt := hPinv _ (mem_of_key ht0P)
          rw [RegEntryInv] at hPt
          have hRt := hRinv _ (mem_of_key ht0R)
          rw [RegEntryInv] at hRt
          rw [hPt.1, hRt.1] at h
          exact ht0ne h
        · exact h.1
      · show (getTriple P t0).2.1 < (getTriple R t0).2.2
        rcases (hP _ (mem_of_key ht0P)).2 with h | h
        · exfalso
          have hPt := hPinv _ (mem_of_key ht0P)
          rw [RegEntryInv] at hPt
          have hRt := hRinv _ (mem_of_key ht0R)
          rw [RegEntryInv] at hRt
          rw [hPt.1, hRt.1] at h
          exact ht0ne h
        · exact h.2
    obtain ⟨e0, he0⟩ := List.exists_mem_of_ne_nil _ hne_nil
    have hc := hcand _ he0
    have heq := applyBest_getTriple_of_mem _ R hbnd _ he0
    have hz0 := hzp _ he0
    have hkeys : keysOf (applyBest R (P.foldl (bestSplitFold R) (-1, [])).2) = keysOf R :=
      keysOf_applyBest _ R (fun e he => (hcand e he).1)
    have hk0 : e0.1 ∈ keysOf (applyBest R (P.foldl (bestSplitFold R) (-1, [])).2) := by
      rw [hkeys]
      exact hasKey_iff_mem_keysOf.mp hc.1
    have hmem0 := mem_of_key hk0
    rw [heq] at hmem0
    have hreg := hc.2.2.2.2
    rw [RegEntryInv] at hreg
    obtain ⟨_, hn0, hlo', hup', hs1, hs2⟩ := hreg
    refine ⟨(e0.1, e0.2), ?_, ?_⟩
    · exact hmem0
    · exact zeroAxisB_of hn0 hlo' hup' hs1 hs2 hz0.2 hz0.1
  · rw [stepRegion_eq_self_of_not_rel (Bool.eq_false_iff.mpr hrel)]
    rw [relevantB] at hrel
    have hex : ∃ kv ∈ R, (hasKey P kv.1 &&
        decide ((getTriple P kv.1).2.1 = kv.2.2.1 ∨
          (kv.2.1 < (getTriple P kv.1).2.1 ∧ (getTriple P kv.1).2.1 < kv.2.2.2))) = false := by
      by_contra hall
      push_neg at hall
      exact hrel (List.all_eq_true.mpr (fun kv hkv => Bool.ne_false_iff.mp (hall kv hkv)))
    obtain ⟨kv, hkvR, hkv⟩ := hex
    have hkeyP : hasKey P kv.1 = true := by
      apply hasKey_iff_mem_keysOf.mpr
      exact (hsets kv.1).mpr (List.mem_map.mpr ⟨kv, hkvR, rfl⟩)
    rw [hkeyP, Bool.true_and, decide_eq_false_iff_not] at hkv
    push_neg at hkv
    have hPpk : (getTriple P kv.1).2.1 = getVal lk kv.1 := by
      have h := hPinv _ (mem_of_key (hasKey_iff_mem_keysOf.mp hkeyP))
      rw [RegEntryInv] at h
      exact h.1
    rw [hPpk] at hkv
    have hreg := hRinv kv hkvR
    rw [RegEntryInv] at hreg
    obtain ⟨_, hn0, hlo', hup', hs1, hs2⟩ := hreg
    refine ⟨kv, hkvR, zeroAxisB_of hn0 hlo' hup' hs1 hs2 hkv.1 ?_⟩
    rcases lt_or_le kv.2.1 (getVal lk kv.1) with h | h
    · right
      exact hkv.2 h
    · left
      exact h

/-! ### Folding refinement steps over all earlier supports -/

theorem foldl_stepRegion_props (loc : Loc) :
    ∀ (ps : List Support) (R : Support), (∀ P ∈ ps, (keysOf P).Nodup) →
      (keysOf R).Nodup → (∀ e ∈ R, RegEntryInv loc e) →
      keysOf (ps.foldl stepRegion R) = keysOf R ∧
      ∀ e ∈ ps.foldl stepRegion R, RegEntryInv loc e := by
  intro ps
  induction ps with
  | nil => intro R _ _ hinv; exact ⟨rfl, hinv⟩
  | cons P ps ih =>
    intro R hps hRnd hRinv
    rw [List.foldl_cons]
    have hPnd := hps P (List.mem_cons_self _ _)
    obtain ⟨hk, hi, _⟩ := stepRegion_props loc R P hRnd hPnd hRinv
    obtain ⟨hk2, hi2⟩ := ih (stepRegion R P) (fun Q hQ => hps Q (List.mem_cons_of_mem _ hQ))
      (hk ▸ hRnd) hi
    exact ⟨hk2.trans hk, hi2⟩

theorem foldl_stepRegion_zeroAt (lk loc : Loc) :
    ∀ (ps : List Support) (R : Support), (∀ P ∈ ps, (keysOf P).Nodup) →
      (keysOf R).Nodup → (∀ e ∈ R, RegEntryInv loc e) →
      (∃ e ∈ R, zeroAxisB lk e = true) →
      ∃ e ∈ ps.foldl stepRegion R, zeroAxisB lk e = true := by
  intro ps
  induction ps with
  | nil => intro R _ _ _ hz; exact hz
  | cons P ps ih =>
    intro R hps hRnd hRinv hz
    rw [List.foldl_cons]
    have hPnd := hps P (List.mem_cons_self _ _)
    obtain ⟨hk, hi, _⟩ := stepRegion_props loc R P hRnd hPnd hRinv
    exact ih (stepRegion R P) (fun Q hQ => hps Q (List.mem_cons_of_mem _ hQ)) (hk ▸ hRnd) hi
      (stepRegion_zeroAt lk loc R P hRnd hPnd hRinv hz)

theorem foldl_stepRegion_establish (lk lj : Loc) :
    ∀ (ps : List Support) (R : Support), (∀ P ∈ ps, (keysOf P).Nodup) →
      (keysOf R).Nodup → (∀ e ∈ R, RegEntryInv lj e) →
      (∃ P ∈ ps, (∀ e ∈ P, RegEntryInv lk e) ∧ (∀ t, t ∈ keysOf P ↔ t ∈ keysOf R)) →
      (∃ t ∈ keysOf R, getVal lk t ≠ getVal lj t) →
      ∃ e ∈ ps.foldl stepRegion R, zeroAxisB lk e = true := by
  intro ps
  induction ps with
  | nil =>
    intro R _ _ _ hw _
    obtain ⟨P, hP, _⟩ := hw
    cases hP
  | cons P0 ps ih =>
    intro R hps hRnd hRinv hw hdiff
    rw [List.foldl_cons]
    have hP0nd := hps P0 (List.mem_cons_self _ _)
    obtain ⟨hk, hi, _⟩ := stepRegion_props lj R P0 hRnd hP0nd hRinv
    obtain ⟨P, hPmem, hPinv, hPsets⟩ := hw
    rcases List.mem_cons.mp hPmem with heq | hmem
    · subst heq
      have hz := stepRegion_establishZero lk lj R P hRnd hP0nd hRinv hPinv hPsets hdiff
      exact foldl_stepRegion_zeroAt lk lj ps (stepRegion R P)
        (fun Q hQ => hps Q (List.mem_cons_of_mem _ hQ)) (hk ▸ hRnd) hi hz
    · refine ih (stepRegion R P0) (fun Q hQ => hps Q (List.mem_cons_of_mem _ hQ))
        (hk ▸ hRnd) hi ⟨P, hmem, hPinv, ?_⟩ ?_
      · intro t
        rw [hk]
        exact hPsets t
      · obtain ⟨t, ht, htne⟩ := hdiff
        exact ⟨t, by rw [hk]; exact ht, htne⟩

/-! ### `computeMasterSupports` refines each region against the final earlier
supports -/

/-- The list of refined supports, carrying the already finished ones: this is
the recursion `computeMasterSupports` performs by mutating `regions[i]` in
place. -/
def refineList : List Support → List Support → List Support
  | _, [] => []
  | prevs, r :: rs =>
    (prevs.foldl stepRegion r) :: refineList (prevs ++ [prevs.foldl stepRegion r]) rs

theorem foldl_build_eq_refineList :
    ∀ (rs prevs : List Support),
      rs.foldl (fun s r => s ++ [s.foldl stepRegion r]) prevs = prevs ++ refineList prevs rs := by
  intro rs
  induction rs with
  | nil => intro prevs; rw [List.foldl_nil, refineList, List.append_nil]
  | cons r rs ih =>
    intro prevs
    rw [List.foldl_cons, ih, refineList, List.append_assoc, List.singleton_append]

theorem refineList_getD :
    ∀ (rs : List Support) (j : ℕ) (prevs : List Support), j < rs.length →
      (refineList prevs rs).getD j [] =
        (prevs ++ (refineList prevs rs).take j).foldl stepRegion (rs.getD j []) := by
  intro rs
  induction rs with
  | nil => intro j prevs hj; cases Nat.not_lt_zero j hj
  | cons r rs ih =>
    intro j prevs hj
    cases j with
    | zero =>
      rw [refineList]
      simp
    | succ j =>
      rw [refineList]
      have hstep := ih j (prevs ++ [prevs.foldl stepRegion r]) (by simpa using hj)
      simp only [List.getD_cons_succ, List.take_succ_cons]
      rw [hstep, List.append_assoc, List.singleton_append]

theorem computeMasterSupports_eq_refineList (ls : List Loc) :
    computeMasterSupports ls = refineList [] (locationsToRegions ls) := by
  rw [computeMasterSupports, foldl_build_eq_refineList, List.nil_append]

theorem computeMasterSupports_take_spec (ls : List Loc) {j : ℕ} (hj : j < ls.length) :
    (computeMasterSupports ls).getD j [] =
      ((computeMasterSupports ls).take j).foldl stepRegion
        ((locationsToRegions ls).getD j []) := by
  rw [computeMasterSupports_eq_refineList]
  have h := refineList_getD (locationsToRegions ls) j []
    (by rw [locationsToRegions_length]; exact hj)
  rwa [List.nil_append] at h

theorem mem_take_supports {ls : List Loc} {j : ℕ} {P : Support}
    (hP : P ∈ (computeMasterSupports ls).take j) :
    ∃ i, i < j ∧ i < ls.length ∧ P = (computeMasterSupports ls).getD i [] := by
  obtain ⟨i, hi, hget⟩ := List.getElem_of_mem hP
  rw [List.length_take, computeMasterSupports_length] at hi
  refine ⟨i, (lt_min_iff.mp hi).1, (lt_min_iff.mp hi).2, ?_⟩
  have hiN : i < (computeMasterSupports ls).length := by
    rw [computeMasterSupports_length]
    exact (lt_min_iff.mp hi).2
  rw [getD_eq_getElem _ [] hiN, ← hget, List.getElem_take]

/-- The master invariant: after construction, the support of master `j` keeps
the key set of its (sorted) location, and every entry satisfies the region
invariant for that location. -/
theorem supports_inv (ls : List Loc)
    (hwf : ∀ l ∈ ls, (keysOf l).Nodup ∧ ∀ kv ∈ l, kv.2 ≠ 0) :
    ∀ j, j < ls.length →
      keysOf ((computeMasterSupports ls).getD j []) = keysOf (ls.getD j []) ∧
      ∀ e ∈ (computeMasterSupports ls).getD j [], RegEntryInv (ls.getD j []) e := by
  intro j
  induction j using Nat.strong_induction_on with
  | _ j ih =>
    intro hj
    have hmemj : ls.getD j [] ∈ ls := getD_mem_of_lt hj
    have hwfj := hwf _ hmemj
    have hreg : (locationsToRegions ls).getD j [] =
        (ls.getD j []).map (fun kv => (kv.1, if kv.2 > 0 then ((0 : ℚ), kv.2, maxVal ls kv.1)
          else (minVal ls kv.1, kv.2, (0 : ℚ)))) := by
      rw [locationsToRegions]
      exact getD_map_eq _ ls [] [] hj
    have hinit := initial_region_inv ls (ls.getD j []) hmemj hwfj.1 hwfj.2
    have hprevs : ∀ P ∈ (computeMasterSupports ls).take j, (keysOf P).Nodup := by
      intro P hP
      obtain ⟨i, hij, hiN, hPe⟩ := mem_take_supports hP
      rw [hPe, (ih i hij hiN).1]
      exact (hwf _ (getD_mem_of_lt hiN)).1
    rw [computeMasterSupports_take_spec ls hj, hreg]
    obtain ⟨hk, hi⟩ := foldl_stepRegion_props (ls.getD j []) ((computeMasterSupports ls).take j)
      _ hprevs (by rw [hinit.1]; exact hwfj.1) hinit.2
    exact ⟨hk.trans hinit.1, hi⟩

/-- Exactness half (A): every master's own support evaluates to scalar 1 at
the master's location (every axis is skipped because the location sits on the
peak). -/
theorem supports_scalar_one (ls : List Loc)
    (hwf : ∀ l ∈ ls, (keysOf l).Nodup ∧ ∀ kv ∈ l, kv.2 ≠ 0)
    {k : ℕ} (hk : k < ls.length) :
    supportScalar (ls.getD k []) ((computeMasterSupports ls).getD k []) = 1 := by
  apply supportScalar_eq_one_of_peaks
  intro e he
  have h := (supports_inv ls hwf k hk).2 e he
  rw [RegEntryInv] at h
  exact h.1

/-! ### The sort is monotone in location size -/

theorem orderedInsert_pairwise_mono {r : Loc → Loc → Prop} [DecidableRel r]
    (h1 : ∀ a b, r a b → a.length ≤ b.length) (h2 : ∀ a b, ¬r a b → b.length ≤ a.length) :
    ∀ (l : List Loc) (a : Loc), l.Pairwise (fun x y => x.length ≤ y.length) →
      (List.orderedInsert r a l).Pairwise (fun x y => x.length ≤ y.length) := by
  intro l
  induction l with
  | nil => intro a _; simp [List.orderedInsert]
  | cons b l ih =>
    intro a hp
    rw [List.pairwise_cons] at hp
    rw [List.orderedInsert]
    split_ifs with hr
    · rw [List.pairwise_cons]
      refine ⟨?_, List.pairwise_cons.mpr hp⟩
      intro y hy
      rcases List.mem_cons.mp hy with h | h
      · rw [h]; exact h1 a b hr
      · exact le_trans (h1 a b hr) (hp.1 y h)
    · rw [List.pairwise_cons]
      refine ⟨?_, ih a hp.2⟩
      intro y hy
      rcases (List.mem_orderedInsert r).mp hy with h | h
      · rw [h]; exact h2 a b hr
      · exact hp.1 y h

theorem insertionSort_pairwise_mono {r : Loc → Loc → Prop} [DecidableRel r]
    (h1 : ∀ a b, r a b → a.length ≤ b.length) (h2 : ∀ a b, ¬r a b → b.length ≤ a.length) :
    ∀ l : List Loc, (List.insertionSort r l).Pairwise (fun x y => x.length ≤ y.length) := by
  intro l
  induction l with
  | nil => simp [List.insertionSort]
  | cons a l ih =>
    rw [List.insertionSort]
    exact orderedInsert_pairwise_mono h1 h2 _ a ih

theorem sortKeyQ_le_length {locs2 : List Loc} {A : List Tag} {a b : Loc}
    (h : sortKeyQ locs2 A a b ≤ 0) : a.length ≤ b.length := by
  by_cases hlen : a.length = b.length
  · exact le_of_eq hlen
  · rw [sortKeyQ, if_pos hlen] at h
    exact_mod_cast sub_nonpos.mp h

theorem sortKeyQ_gt_length {locs2 : List Loc} {A : List Tag} {a b : Loc}
    (h : ¬sortKeyQ locs2 A a b ≤ 0) : b.length ≤ a.length := by
  by_cases hlen : a.length = b.length
  · exact le_of_eq hlen.symm
  · rw [sortKeyQ, if_pos hlen] at h
    have := le_of_lt (sub_pos.mp (lt_of_not_le h))
    exact_mod_cast this

/-- Exactness half (B): the support of a strictly later master evaluates to
scalar 0 at an earlier master's location. -/
theorem supports_scalar_zero (ls : List Loc)
    (hwf : ∀ l ∈ ls, (keysOf l).Nodup ∧ ∀ kv ∈ l, kv.2 ≠ 0)
    (hmono : ls.Pairwise (fun x y => x.length ≤ y.length))
    (hdiff : ls.Pairwise (fun a b => ∃ t ∈ keysOf a ++ keysOf b, getVal a t ≠ getVal b t))
    {k j : ℕ} (hkj : k < j) (hj : j < ls.length) :
    supportScalar (ls.getD k []) ((computeMasterSupports ls).getD j []) = 0 := by
  have hk : k < ls.length := lt_trans hkj hj
  have hwfk := hwf _ (getD_mem_of_lt hk)
  have hwfj := hwf _ (getD_mem_of_lt hj)
  have hsinvj := supports_inv ls hwf j hj
  have hsinvk := supports_inv ls hwf k hk
  apply supportScalar_eq_zero_of_zeroAxis
  by_cases hC : ∃ t ∈ keysOf (ls.getD j []), t ∉ keysOf (ls.getD k [])
  · obtain ⟨t, htj, htk⟩ := hC
    have htS : t ∈ keysOf ((computeMasterSupports ls).getD j []) := by
      rw [hsinvj.1]
      exact htj
    have hmem := mem_of_key htS
    have hreg := hsinvj.2 _ hmem
    rw [RegEntryInv] at hreg
    obtain ⟨_, hn0, hlo, hup, hs1, hs2⟩ := hreg
    have hval0 : getVal (ls.getD k []) t = 0 := by
      apply getVal_eq_zero_of_not_hasKey
      cases hkey : hasKey (ls.getD k []) t
      · rfl
      · exact absurd (hasKey_iff_mem_keysOf.mp hkey) htk
    refine ⟨_, hmem, zeroAxisB_of hn0 hlo hup hs1 hs2 ?_ ?_⟩
    · show getVal (ls.getD k []) t ≠ _
      rw [hval0]
      exact fun h => hn0 h.symm
    · show getVal (ls.getD k []) t ≤ _ ∨ _ ≤ getVal (ls.getD k []) t
      rw [hval0]
      rcases lt_trichotomy (getTriple ((computeMasterSupports ls).getD j []) t).2.1 0 with
        hpk | hpk | hpk
      · right; exact hs2 hpk
      · exact absurd hpk hn0
      · left; exact hs1 hpk
  · push_neg at hC
    have hlen : (ls.getD k []).length ≤ (ls.getD j []).length := by
      rw [List.pairwise_iff_get] at hmono
      have h := hmono ⟨k, hk⟩ ⟨j, hj⟩ (Fin.mk_lt_mk.mpr hkj)
      rw [getD_eq_get _ _ hk, getD_eq_get _ _ hj]
      exact h
    have hcardk : (keysOf (ls.getD k [])).toFinset.card = (ls.getD k []).length := by
      rw [List.toFinset_card_of_nodup hwfk.1, keysOf, List.length_map]
    have hcardj : (keysOf (ls.getD j [])).toFinset.card = (ls.getD j []).length := by
      rw [List.toFinset_card_of_nodup hwfj.1, keysOf, List.length_map]
    have hsub : (keysOf (ls.getD j [])).toFinset ⊆ (keysOf (ls.getD k [])).toFinset := by
      intro t ht
      rw [List.mem_toFinset] at ht
      exact List.mem_toFinset.mpr (hC t ht)
    have heqF : (keysOf (ls.getD j [])).toFinset = (keysOf (ls.getD k [])).toFinset :=
      Finset.eq_of_subset_of_card_le hsub (by rw [hcardk, hcardj]; exact hlen)
    have hsete : ∀ t, t ∈ keysOf (ls.getD k []) ↔ t ∈ keysOf (ls.getD j []) := by
      intro t
      refine ⟨fun ht => ?_, fun ht => hC t ht⟩
      have h := List.mem_toFinset.mpr ht
      rw [← heqF] at h
      exact List.mem_toFinset.mp h
    have hpair : ∃ t ∈ keysOf (ls.getD k []) ++ keysOf (ls.getD j []),
        getVal (ls.getD k []) t ≠ getVal (ls.getD j []) t := by
      rw [List.pairwise_iff_get] at hdiff
      have h := hdiff ⟨k, hk⟩ ⟨j, hj⟩ (Fin.mk_lt_mk.mpr hkj)
      rw [getD_eq_get _ _ hk, getD_eq_get _ _ hj]
      exact h
    obtain ⟨t0, ht0mem, ht0ne⟩ := hpair
    have ht0j : t0 ∈ keysOf (ls.getD j []) := by
      rcases List.mem_append.mp ht0mem with h | h
      · exact (hsete t0).mp h
      · exact h
    have hreg : (locationsToRegions ls).getD j [] =
        (ls.getD j []).map (fun kv => (kv.1, if kv.2 > 0 then ((0 : ℚ), kv.2, maxVal ls kv.1)
          else (minVal ls kv.1, kv.2, (0 : ℚ)))) := by
      rw [locationsToRegions]
      exact getD_map_eq _ ls [] [] hj
    have hinit := initial_region_inv ls (ls.getD j []) (getD_mem_of_lt hj) hwfj.1 hwfj.2
    rw [computeMasterSupports_take_spec ls hj, hreg]
    apply foldl_stepRegion_establish (ls.getD k []) (ls.getD j [])
    · intro P hP
      obtain ⟨i, hij, hiN, hPe⟩ := mem_take_supports hP
      rw [hPe, (supports_inv ls hwf i hiN).1]
      exact (hwf _ (getD_mem_of_lt hiN)).1
    · rw [hinit.1]
      exact hwfj.1
    · exact hinit.2
    · have hkt : k < ((computeMasterSupports ls).take j).length := by
        rw [List.length_take, computeMasterSupports_length]
        exact lt_min_iff.mpr ⟨hkj, hk⟩
      have hkN : k < (computeMasterSupports ls).length := by
        rw [computeMasterSupports_length]
        exact hk
      have hgetk : (computeMasterSupports ls).getD k [] =
          ((computeMasterSupports ls).take j).get ⟨k, hkt⟩ := by
        rw [getD_eq_getElem _ [] hkN, List.get_eq_getElem, List.getElem_take]
      refine ⟨(computeMasterSupports ls).getD k [], ?_, hsinvk.2, ?_⟩
      · rw [hgetk]
        exact List.get_mem _ _ _
      · intro t
        rw [hsinvk.1, hinit.1]
        exact hsete t
    · exact ⟨t0, by rw [hinit.1]; exact ht0j, ht0ne⟩

/-! ### Exactness at masters (claim C1, amended) -/

theorem model_locations_perm (locations : List Loc) (axisOrder : List Tag)
    (hnz : ∀ l ∈ locations, ∀ kv ∈ l, kv.2 ≠ 0) :
    (mkVariationModel locations axisOrder).locations.Perm locations := by
  rw [mkVariationModel_locations, map_sparsify_eq_self hnz]
  exact List.perm_insertionSort _ _

theorem model_locations_wf (locations : List Loc) (axisOrder : List Tag)
    (hwf : ∀ l ∈ locations, (keysOf l).Nodup ∧ ∀ kv ∈ l, kv.2 ≠ 0) :
    ∀ l ∈ (mkVariationModel locations axisOrder).locations,
      (keysOf l).Nodup ∧ ∀ kv ∈ l, kv.2 ≠ 0 := by
  intro l hl
  exact hwf l
    ((model_locations_perm locations axisOrder (fun l hl => (hwf l hl).2)).subset hl)

theorem model_locations_mono (locations : List Loc) (axisOrder : List Tag) :
    (mkVariationModel locations axisOrder).locations.Pairwise
      (fun x y => x.length ≤ y.length) := by
  rw [mkVariationModel_locations]
  exact insertionSort_pairwise_mono (fun a b h => sortKeyQ_le_length h)
    (fun a b h => sortKeyQ_gt_length h) _

theorem model_locations_diff (locations : List Loc) (axisOrder : List Tag)
    (hnz : ∀ l ∈ locations, ∀ kv ∈ l, kv.2 ≠ 0)
    (hpd : locations.Pairwise (fun a b => ∃ t ∈ keysOf a ++ keysOf b, getVal a t ≠ getVal b t)) :
    (mkVariationModel locations axisOrder).locations.Pairwise
      (fun a b => ∃ t ∈ keysOf a ++ keysOf b, getVal a t ≠ getVal b t) := by
  have hsymm : Symmetric
      (fun a b : Loc => ∃ t ∈ keysOf a ++ keysOf b, getVal a t ≠ getVal b t) := by
    intro a b h
    obtain ⟨t, ht, hne⟩ := h
    refine ⟨t, ?_, hne.symm⟩
    rw [List.mem_append] at ht ⊢
    tauto
  exact ((model_locations_perm locations axisOrder hnz).pairwise_iff
    (fun hab => hsymm hab)).mpr hpd

theorem nodup_of_pairwise_diff {locations : List Loc}
    (hpd : locations.Pairwise (fun a b => ∃ t ∈ keysOf a ++ keysOf b, getVal a t ≠ getVal b t)) :
    locations.Nodup :=
  List.Pairwise.imp (fun h => by
    obtain ⟨t, _, hne⟩ := h
    intro heq
    rw [heq] at hne
    exact hne rfl) hpd

/-- At the `k`-th sorted master location the back-substituted output vector of
`getMasterScalars` is the indicator of index `k`. -/
theorem model_out_at_master (locations : List Loc) (axisOrder : List Tag)
    (hwf : ∀ l ∈ locations, (keysOf l).Nodup ∧ ∀ kv ∈ l, kv.2 ≠ 0)
    (hpd : locations.Pairwise (fun a b => ∃ t ∈ keysOf a ++ keysOf b, getVal a t ≠ getVal b t))
    (k : ℕ) (hk : k < locations.length) :
    ∀ j, j < locations.length →
      (modelOut (mkVariationModel locations axisOrder)
        ((mkVariationModel locations axisOrder).locations.getD k [])).getD j 0 =
        if j = k then 1 else 0 := by
  have hnz : ∀ l ∈ locations, ∀ kv ∈ l, kv.2 ≠ 0 := fun l hl => (hwf l hl).2
  have hN := model_locations_length locations axisOrder
  have hwf' := model_locations_wf locations axisOrder hwf
  have hmono := model_locations_mono locations axisOrder
  have hdiff := model_locations_diff locations axisOrder hnz hpd
  obtain ⟨holen, hrel⟩ := model_backSub locations axisOrder
    ((mkVariationModel locations axisOrder).locations.getD k [])
  have hsup_len : (mkVariationModel locations axisOrder).supports.length = locations.length :=
    model_supports_length locations axisOrder
  have hs : ∀ j, j < locations.length →
      (getScalars (mkVariationModel locations axisOrder)
        ((mkVariationModel locations axisOrder).locations.getD k [])).getD j 0 =
      supportScalar ((mkVariationModel locations axisOrder).locations.getD k [])
        ((mkVariationModel locations axisOrder).supports.getD j []) := by
    intro j hj
    rw [getScalars]
    exact getD_map_eq _ _ [] 0 (by rw [hsup_len]; exact hj)
  have hA : supportScalar ((mkVariationModel locations axisOrder).locations.getD k [])
      ((mkVariationModel locations axisOrder).supports.getD k []) = 1 := by
    rw [mkVariationModel_supports]
    exact supports_scalar_one _ hwf' (by rw [hN]; exact hk)
  have hB : ∀ j, k < j → j < locations.length →
      supportScalar ((mkVariationModel locations axisOrder).locations.getD k [])
        ((mkVariationModel locations axisOrder).supports.getD j []) = 0 := by
    intro j hkj hj
    rw [mkVariationModel_supports]
    exact supports_scalar_zero _ hwf' hmono hdiff hkj (by rw [hN]; exact hj)
  have key : ∀ t : ℕ, ∀ j, j < locations.length → locations.length - j ≤ t →
      (modelOut (mkVariationModel locations axisOrder)
        ((mkVariationModel locations axisOrder).locations.getD k [])).getD j 0 =
        if j = k then 1 else 0 := by
    intro t
    induction t with
    | zero => intro j hj hle; omega
    | succ t ih =>
      intro j hj hle
      have hrelj := hrel j hj
      have hsum : ∑ i ∈ Finset.range locations.length,
          rowW ((mkVariationModel locations axisOrder).deltaWeights.getD i []) j *
            (modelOut (mkVariationModel locations axisOrder)
              ((mkVariationModel locations axisOrder).locations.getD k [])).getD i 0 =
          rowW ((mkVariationModel locations axisOrder).deltaWeights.getD k []) j *
            (modelOut (mkVariationModel locations axisOrder)
              ((mkVariationModel locations axisOrder).locations.getD k [])).getD k 0 :=
        Finset.sum_eq_single k
          (fun i hi hik => by
            by_cases hij : i ≤ j
            · rw [rowW_eq_zero_of_keys_lt (model_rows_keys locations axisOrder i) hij]
              ring
            · rw [ih i (Finset.mem_range.mp hi) (by omega), if_neg hik]
              ring)
          (fun hk' => absurd (Finset.mem_range.mpr hk) hk')
      rw [hs j hj] at hrelj
      by_cases hjk : j = k
      · subst hjk
        have hrow0 : rowW ((mkVariationModel locations axisOrder).deltaWeights.getD j []) j = 0 :=
          rowW_eq_zero_of_keys_lt (model_rows_keys locations axisOrder j) (le_refl j)
        rw [hsum, hrow0, zero_mul, add_zero, hA] at hrelj
        rw [if_pos rfl]
        linarith
      · rcases lt_or_gt_of_ne hjk with hlt | hgt
        · have houtk : (modelOut (mkVariationModel locations axisOrder)
              ((mkVariationModel locations axisOrder).locations.getD k [])).getD k 0 = 1 := by
            rw [ih k hk (by omega)]
            simp
          rw [hsum, houtk, mul_one, model_rows_getD locations axisOrder hk,
            rowW_deltaWeightRow, if_pos hlt] at hrelj
          have hMeq : supportScalar
              ((mkVariationModel locations axisOrder).locations.getD k [])
              ((mkVariationModel locations axisOrder).supports.getD j []) =
              scalarMatrix (mkVariationModel locations axisOrder).locations
                (mkVariationModel locations axisOrder).supports k j := rfl
          rw [hMeq] at hrelj
          rw [if_neg hjk]
          linarith
        · rw [hsum, rowW_eq_zero_of_keys_lt (model_rows_keys locations axisOrder k)
            (le_of_lt hgt), zero_mul, add_zero, hB j hgt hj] at hrelj
          rw [if_neg hjk]
          linarith
  intro j hj
  exact key locations.length j hj (by omega)

/-- C1 (amended): for every model built from well-formed (per-location nodup
keys, no explicit zeros) and pairwise functionally distinct locations, every
sorted index `k` and every value vector `v` of matching length,
`interpolateFromMasters(sortedLocations[k], v)` returns exactly
`v[reverseMapping[k]]` — interpolation is exact at each master. -/
theorem c1_exactness_at_masters (locations : List Loc) (axisOrder : List Tag)
    (hwf : ∀ l ∈ locations, (keysOf l).Nodup ∧ ∀ kv ∈ l, kv.2 ≠ 0)
    (hpd : locations.Pairwise (fun a b => ∃ t ∈ keysOf a ++ keysOf b, getVal a t ≠ getVal b t))
    (k : ℕ) (hk : k < locations.length) (v : List ℚ) (hv : v.length = locations.length) :
    interpolateFromMasters (mkVariationModel locations axisOrder)
        ((mkVariationModel locations axisOrder).locations.getD k []) v =
      some (jsIdx v ((mkVariationModel locations axisOrder).reverseMapping.getD k 0)) := by
  have hnz : ∀ l ∈ locations, ∀ kv ∈ l, kv.2 ≠ 0 := fun l hl => (hwf l hl).2
  have hnd : locations.Nodup := nodup_of_pairwise_diff hpd
  have hout := model_out_at_master locations axisOrder hwf hpd k hk
  rw [masterPath_closed locations axisOrder hnz hnd _ v hv]
  obtain ⟨_, hperm_rev⟩ := model_perm_facts locations axisOrder hnz hnd k hk
  obtain ⟨hr1, hr2, hr3⟩ := hperm_rev
  have hcond : ¬(∀ k', k' < locations.length →
      (modelOut (mkVariationModel locations axisOrder)
        ((mkVariationModel locations axisOrder).locations.getD k [])).getD
        (mapNat (mkVariationModel locations axisOrder) k') 0 = 0) := by
    intro hall
    have h := hall (revNat (mkVariationModel locations axisOrder) k) hr1
    rw [hr3, hout k hk] at h
    simp at h
  rw [if_neg hcond, hr2]
  have hrv : revNat (mkVariationModel locations axisOrder) k < v.length := by
    rw [hv]
    exact hr1
  rw [jsIdx, if_pos (Int.natCast_nonneg _), Int.toNat_natCast, List.get?_eq_get hrv,
    ← getD_eq_get v 0 hrv]
  have h0 : ∀ b ∈ Finset.range locations.length,
      b ≠ revNat (mkVariationModel locations axisOrder) k →
      v.getD b 0 * (modelOut (mkVariationModel locations axisOrder)
        ((mkVariationModel locations axisOrder).locations.getD k [])).getD
        (mapNat (mkVariationModel locations axisOrder) b) 0 = 0 := by
    intro b hb hbne
    obtain ⟨⟨hm1, _, hm3⟩, _⟩ :=
      model_perm_facts locations axisOrder hnz hnd b (Finset.mem_range.mp hb)
    rw [hout _ hm1, if_neg (fun hmb => hbne (by rw [← hm3, hmb])), mul_zero]
  have h1 : revNat (mkVariationModel locations axisOrder) k ∉ Finset.range locations.length →
      v.getD (revNat (mkVariationModel locations axisOrder) k) 0 *
        (modelOut (mkVariationModel locations axisOrder)
          ((mkVariationModel locations axisOrder).locations.getD k [])).getD
          (mapNat (mkVariationModel locations axisOrder)
            (revNat (mkVariationModel locations axisOrder) k)) 0 = 0 :=
    fun hnr => absurd (Finset.mem_range.mpr hr1) hnr
  rw [Finset.sum_eq_single _ h0 h1, hr3, hout k hk, if_pos rfl, mul_one]

/-- Instantiation of the amended C1 at a concrete model, sorted index and
value vector, discharging its hypotheses. -/
theorem c1_witness :
    ((∀ l ∈ ([[], [("wght", 1)], [("wdth", 1)]] : List Loc),
        (keysOf l).Nodup ∧ ∀ kv ∈ l, kv.2 ≠ 0) ∧
      ([[], [("wght", 1)], [("wdth", 1)]] : List Loc).Pairwise
        (fun a b => ∃ t ∈ keysOf a ++ keysOf b, getVal a t ≠ getVal b t) ∧
      1 < ([[], [("wght", 1)], [("wdth", 1)]] : List Loc).length ∧
      ([5, 10, 20] : List ℚ).length = ([[], [("wght", 1)], [("wdth", 1)]] : List Loc).length) ∧
    interpolateFromMasters (mkVariationModel [[], [("wght", 1)], [("wdth", 1)]] ["wght"])
        ((mkVariationModel [[], [("wght", 1)], [("wdth", 1)]] ["wght"]).locations.getD 1 [])
        [5, 10, 20] =
      some (jsIdx [5, 10, 20]
        ((mkVariationModel [[], [("wght", 1)], [("wdth", 1)]] ["wght"]).reverseMapping.getD
          1 0)) :=
  ⟨⟨by with_unfolding_all decide, by with_unfolding_all decide, by with_unfolding_all decide,
      by with_unfolding_all decide⟩,
    c1_exactness_at_masters [[], [("wght", 1)], [("wdth", 1)]] ["wght"]
      (by with_unfolding_all decide) (by with_unfolding_all decide) 1
      (by with_unfolding_all decide) [5, 10, 20] (by with_unfolding_all decide)⟩

end FontTypes
